import Mathlib

/-!
# Depth-by-order book (`DboStore.h`): shallow embedding

The C++ class `DboStore<T>` keeps its `DboRecord`s in one
`boost::multi_index_container` with two indices:

* index 0, `ordered_non_unique` on the composite key `(ut, price)` compared
  with `composite_key_compare<std::less<UpdateType>, std::less<PriceType>>`;
* index 1, `hashed_unique` on `id`.

The container is embedded as the list of its records in the iteration order of
index 0 (the ordered view).  The hashed index holds the same records, so the
identity view is "the record of the list with that id".  The container
operations used by the source (`emplace`, `find`, `modify`) follow the
behaviour documented for Boost.MultiIndex:

* `emplace` links a new node at the upper bound of its key in an
  `ordered_non_unique` index and is refused when a `hashed_unique` index
  already holds the key;
* `modify(it, mod)` calls `mod` on the element; when `mod` throws, the element
  is erased and the exception is rethrown; otherwise the element keeps its
  position when it is still in place between its neighbours, and is relinked at
  the upper bound of its new key when it is not; when an index refuses the
  modified element, the element is erased and `modify` returns `false`.

`double` sizes are taken as exact rational numbers; `PriceType`
(`unsigned long long`) values are natural numbers, on which the store only
uses `<`, `!=` and the test against `0`.

The `double` price of `DboBook::addOrUpdate` is an IEEE-754 binary64 value,
embedded with integers as `Dbl` (significand and binary exponent, finite and
non-negative): the product `price*convertToPrice(1, numFrac)` is rounded to the
nearest binary64 value, ties to even, and its conversion to `PriceType` drops
the fractional part.
-/

namespace Dbo

deriving instance DecidableEq for Except

/-- `enum UpdateType { utNewOrChanged, utDeleted }`. -/
inductive UpdateType where
  | utNewOrChanged
  | utDeleted
  deriving DecidableEq

open UpdateType

/-- `enum OrderSide { osAsk, osBid }`. -/
inductive OrderSide where
  | osAsk
  | osBid
  deriving DecidableEq

/-- The integer value of an `UpdateType` enumerator, which `std::less<UpdateType>` compares. -/
def UpdateType.toNat : UpdateType → Nat
  | utNewOrChanged => 0
  | utDeleted => 1

/-- `struct DboRecord`. -/
structure DboRecord where
  price : Nat
  size : ℚ
  nsecs : Int
  ssboe : Int
  usecs : Int
  id : String
  priority : Nat
  fresh : Bool
  ut : UpdateType
  deriving DecidableEq

/-- The comparison of index 0: `composite_key_compare<std::less<UpdateType>, std::less<PriceType>>`
on the composite key `(ut, price)`, a lexicographic strict order.  It is the
same for every tag `T`. -/
def keyLt (a b : DboRecord) : Bool :=
  decide (a.ut.toNat < b.ut.toNat) ||
    (!decide (b.ut.toNat < a.ut.toNat) && decide (a.price < b.price))

/-- The container `_recs`, as the sequence of its records in the order of index 0. -/
abbrev DboStore := List DboRecord

/-- Link point of an `ordered_non_unique` index: a node goes after every node
whose key is not greater than its own (descend left exactly when `k < key x`). -/
def linkInsert (r : DboRecord) : List DboRecord → List DboRecord
  | [] => [r]
  | x :: xs => if keyLt r x then r :: x :: xs else x :: linkInsert r xs

/-- The lookup `view.find(id)` of the hashed index: the position of the record with this id,
`none` for `view.end()`. -/
def DboStore.find : DboStore → String → Option Nat
  | [], _ => none
  | r :: rs, id => if r.id = id then some 0 else (DboStore.find rs id).map (· + 1)

/-- The identity view: the record stored for an id, if any. -/
def DboStore.record (s : DboStore) (id : String) : Option DboRecord :=
  (s.find id).bind (fun i => s[i]?)

/-- The container's `emplace`: refused by the `hashed_unique` index when the id is present,
linked at the upper bound of its key otherwise. -/
def DboStore.emplace (s : DboStore) (r : DboRecord) : DboStore :=
  if s.any (fun x => decide (x.id = r.id)) then s else linkInsert r s

/-- The test `in_place` of an `ordered_non_unique` index for a modified element `v` standing
between the records `pre` and `post`: the key of `v` is not less than its predecessor's and
its successor's key is not less than the key of `v`. -/
def inPlace (pre : List DboRecord) (v : DboRecord) (post : List DboRecord) : Bool :=
  (match pre.getLast? with
   | none => true
   | some y => !keyLt v y) &&
  (match post.head? with
   | none => true
   | some y => !keyLt y v)

/-- The container's `modify(it, mod)` at position `i` (the one-argument form, without
rollback).  Boost.MultiIndex gives it basic exception safety: "if an exception is thrown by
some user-provided operation (including `mod`), then the element pointed to by `position` is
erased"; and when the rearrangement fails in some index the element is erased too.  The first
component is what the call does: `error e` when `mod` threw `e` (rethrown), `ok b` when it
returned `b`. -/
def DboStore.modify (s : DboStore) (i : Nat) (mod : DboRecord → Except String DboRecord) :
    Except String Bool × DboStore :=
  match s[i]? with
  | none => (.ok false, s)
  | some x =>
    let pre := s.take i
    let post := s.drop (i + 1)
    match mod x with
    | .error e => (.error e, pre ++ post)
    | .ok v =>
      if (pre ++ post).any (fun y => decide (y.id = v.id)) then (.ok false, pre ++ post)
      else if inPlace pre v post then (.ok true, pre ++ v :: post)
      else (.ok true, linkInsert v (pre ++ post))

/-- The modifier lambda of `addOrUpdateDirect`, lines 209-234. -/
def updateRecord (price : Nat) (size : ℚ) (nsecs ssboe usecs : Int) (priority : Nat)
    (fresh : Bool) (ut : UpdateType) (r : DboRecord) : Except String DboRecord :=
  if r.fresh && !fresh then
    .ok r
  else if r.ut = utDeleted ∧ ut ≠ utDeleted then
    .error "order is marked as deleted"
  else
    .ok { r with ut := ut, price := price, size := size, nsecs := nsecs, ssboe := ssboe,
                 usecs := usecs, priority := priority, fresh := fresh }

/-- `DboStore::addOrUpdateDirect`.  The first component is `ok ()` when the call returns and
`error e` when it throws `std::runtime_error(e)`; the second is the store after the call. -/
def DboStore.addOrUpdateDirect (s : DboStore) (price : Nat) (size : ℚ)
    (nsecs ssboe usecs : Int) (id : String) (priority : Nat) (fresh : Bool)
    (ut : UpdateType) : Except String Unit × DboStore :=
  match s.find id with
  | none =>
    (.ok (), s.emplace ⟨price, size, nsecs, ssboe, usecs, id, priority, fresh, ut⟩)
  | some i =>
    match s.modify i (updateRecord price size nsecs ssboe usecs priority fresh ut) with
    | (.error e, s') => (.error e, s')
    | (.ok _, s') => (.ok (), s')

/-- A `std::map<PriceType, double>`: its entries in ascending key order. -/
abbrev PriceMap := List (Nat × ℚ)

/-- The assignment `m[k] = v` on a `std::map`. -/
def PriceMap.assign (k : Nat) (v : ℚ) : PriceMap → PriceMap
  | [] => [(k, v)]
  | (k', v') :: rest =>
    if k < k' then (k, v) :: (k', v') :: rest
    else if k = k' then (k, v) :: rest
    else (k', v') :: PriceMap.assign k v rest

/-- The local variables of `getTopEntries` together with the output map. -/
structure TopState where
  currentPrice : Nat
  volume : ℚ
  numEntries : Int
  m : PriceMap
  deriving DecidableEq

/-- The range-for loop of `getTopEntries` (lines 171-186) over the ordered view. -/
def topLoop (nTopEntries : Int) : List DboRecord → TopState → TopState
  | [], st => st
  | a :: rest, st =>
    if st.numEntries ≥ nTopEntries then st
    else if a.ut = utDeleted then st
    else if a.price ≠ st.currentPrice then
      let st1 : TopState :=
        if st.currentPrice ≠ 0 then
          { st with m := st.m.assign st.currentPrice st.volume, numEntries := st.numEntries + 1 }
        else st
      topLoop nTopEntries rest { st1 with currentPrice := a.price, volume := a.size }
    else
      topLoop nTopEntries rest { st with volume := st.volume + a.size }

/-- The statement after the loop of `getTopEntries` (lines 188-189). -/
def topFlush (nTopEntries : Int) (st : TopState) : PriceMap :=
  if st.numEntries < nTopEntries ∧ st.currentPrice ≠ 0 then
    st.m.assign st.currentPrice st.volume
  else st.m

/-- The call `m.clear()`. -/
def PriceMap.clear (_ : PriceMap) : PriceMap := []

/-- `DboStore::getTopEntries(nTopEntries, m)`: the map `m` after the call, `m0` being its
contents before the call. -/
def DboStore.getTopEntries (s : DboStore) (nTopEntries : Int) (m0 : PriceMap) : PriceMap :=
  topFlush nTopEntries (topLoop nTopEntries s ⟨0, 0, 0, m0.clear⟩)

/-- The records of a store whose kind is `utNewOrChanged`. -/
def DboStore.live (s : DboStore) : List DboRecord :=
  s.filter (fun r => decide (r.ut = utNewOrChanged))

/-- The exact sum of the sizes of the `utNewOrChanged` records of a store whose price is `p`. -/
def DboStore.liveSizeAt (s : DboStore) (p : Nat) : ℚ :=
  ((s.filter (fun r => decide (r.ut = utNewOrChanged) && decide (r.price = p))).map
    (fun r => r.size)).sum

/-- The ordered index is sorted by its comparison: no record is followed by one with a
smaller key. -/
def Sorted (l : List DboRecord) : Prop := l.Pairwise (fun a b => keyLt b a = false)

/-- The exact sum of the sizes of the records of a list whose price is `p`. -/
def sizeAt (p : Nat) (l : List DboRecord) : ℚ :=
  ((l.filter (fun r => decide (r.price = p))).map (fun r => r.size)).sum

/-- The price levels of a run of records, the level `(c, v)` being in progress: consecutive
records of one price make one level, whose size is the sum of theirs. -/
def levelsFrom (c : Nat) (v : ℚ) : List DboRecord → List (Nat × ℚ)
  | [] => [(c, v)]
  | a :: rest =>
    if a.price = c then levelsFrom c (v + a.size) rest
    else (c, v) :: levelsFrom a.price a.size rest

/-- `static const int numFrac = 12`. -/
def numFrac : Nat := 12

/-- `convertToPrice(a, nfrac)`: `a` times ten, `nfrac` times over, in `unsigned long long`. -/
def convertToPrice (a : Nat) : Nat → Nat
  | 0 => a % 2 ^ 64
  | nfrac + 1 => convertToPrice (a * 10 % 2 ^ 64) nfrac

/-- `class DboBook`: the two stores.  Both are `DboStore<T>`, which the tag `T` only names. -/
structure DboBook where
  _asks : DboStore
  _bids : DboStore
  deriving DecidableEq

/-- `DboBook::getTopEntries(s, nTopEntries, m)`. -/
def DboBook.getTopEntries (b : DboBook) (s : OrderSide) (nTopEntries : Int) (m0 : PriceMap) :
    PriceMap :=
  if s = OrderSide.osAsk then b._asks.getTopEntries nTopEntries m0
  else b._bids.getTopEntries nTopEntries m0

/-- The number of binary digits of a natural number, by halving at most `fuel` times. -/
def bitsAux : Nat → Nat → Nat
  | 0, _ => 0
  | fuel + 1, n => if n = 0 then 0 else bitsAux fuel (n / 2) + 1

/-- The number of binary digits of a natural number (`0` for `0`). -/
def bits (n : Nat) : Nat := bitsAux n n

/-- The quotient `n / d` rounded to the nearest natural number, a tie going to the even
one. -/
def rneDiv (n d : Nat) : Nat :=
  if 2 * (n % d) < d then n / d
  else if d < 2 * (n % d) then n / d + 1
  else if (n / d) % 2 = 0 then n / d
  else n / d + 1

/-- A finite non-negative `double`: the number `man * 2 ^ exp`. -/
structure Dbl where
  man : Nat
  exp : Int
  deriving DecidableEq

/-- The number a `Dbl` stands for. -/
def Dbl.val (x : Dbl) : ℚ := (x.man : ℚ) * (2 : ℚ) ^ x.exp

/-- The pair is a binary64 value: a significand of at most 53 binary digits and an exponent
in the range of the format. -/
def Dbl.IsDouble (x : Dbl) : Prop := x.man < 2 ^ 53 ∧ -1074 ≤ x.exp ∧ x.exp ≤ 971

instance (x : Dbl) : Decidable x.IsDouble := by
  unfold Dbl.IsDouble; infer_instance

/-- The binary64 value nearest to `n * 2 ^ e`, ties to even: the binary digits of `n` beyond
the 53rd are dropped (and those below the exponent `-1074` of the subnormal numbers), the
rest rounded.  Overflow to infinity is not embedded. -/
def Dbl.round (n : Nat) (e : Int) : Dbl :=
  if rneDiv n (2 ^ max (bits n - 53) (-1074 - e).toNat) = 2 ^ 53 then
    ⟨2 ^ 52, e + (max (bits n - 53) (-1074 - e).toNat : Nat) + 1⟩
  else
    ⟨rneDiv n (2 ^ max (bits n - 53) (-1074 - e).toNat),
      e + (max (bits n - 53) (-1074 - e).toNat : Nat)⟩

/-- The product of two `double`s: the exact product, rounded. -/
def Dbl.mul (x y : Dbl) : Dbl := Dbl.round (x.man * y.man) (x.exp + y.exp)

/-- The conversion of an `unsigned long long` to `double`. -/
def Dbl.ofNat (n : Nat) : Dbl := Dbl.round n 0

/-- The conversion of a `double` to `PriceType` (`unsigned long long`): the fractional part
is dropped.  For a value of `2 ^ 64` or more the C++ conversion is undefined; the embedding
reduces modulo `2 ^ 64`. -/
def Dbl.toPriceType (x : Dbl) : Nat :=
  (if 0 ≤ x.exp then x.man * 2 ^ x.exp.toNat else x.man / 2 ^ (-x.exp).toNat) % 2 ^ 64

/-- The binary exponent `e` for which `n / d / 2 ^ e` lies between `2 ^ 52` and `2 ^ 53`
(`n` and `d` positive). -/
def ratioExp (n d : Nat) : Int :=
  if n * 2 ^ ((bits d : Int) + 52 - bits n).toNat /
      (d * 2 ^ ((bits n : Int) - bits d - 52).toNat) < 2 ^ 52
  then (bits n : Int) - bits d - 53 else (bits n : Int) - bits d - 52

/-- The `double` a decimal literal denotes: the binary64 value nearest to `n / d`, ties to
even (`d` positive, `n / d` in the range of the normal numbers). -/
def Dbl.ofRatio (n d : Nat) : Dbl :=
  if n = 0 then ⟨0, 0⟩
  else if rneDiv (n * 2 ^ (-ratioExp n d).toNat) (d * 2 ^ (ratioExp n d).toNat) = 2 ^ 53 then
    ⟨2 ^ 52, ratioExp n d + 1⟩
  else ⟨rneDiv (n * 2 ^ (-ratioExp n d).toNat) (d * 2 ^ (ratioExp n d).toNat), ratioExp n d⟩

/-- The argument `price*convertToPrice(1, numFrac)` of `addOrUpdateDirect` in
`DboBook::addOrUpdate` (lines 303 and 308): the `unsigned long long` factor is converted to
`double`, the product is a `double`, and the parameter of type `PriceType` receives it
converted. -/
def fixedPrice (price : Dbl) : Nat :=
  Dbl.toPriceType (Dbl.mul price (Dbl.ofNat (convertToPrice 1 numFrac)))

/-- `DboBook::addOrUpdate`. -/
def DboBook.addOrUpdate (b : DboBook) (s : OrderSide) (price : Dbl) (size : ℚ)
    (nsecs ssboe usecs : Int) (id : String) (priority : Nat) (fresh : Bool)
    (ut : UpdateType) : Except String Unit × DboBook :=
  if s = OrderSide.osAsk then
    ((b._asks.addOrUpdateDirect (fixedPrice price) size nsecs ssboe usecs id priority fresh
        ut).1,
      { b with _asks :=
          (b._asks.addOrUpdateDirect (fixedPrice price) size nsecs ssboe usecs id priority
            fresh ut).2 })
  else
    ((b._bids.addOrUpdateDirect (fixedPrice price) size nsecs ssboe usecs id priority fresh
        ut).1,
      { b with _bids :=
          (b._bids.addOrUpdateDirect (fixedPrice price) size nsecs ssboe usecs id priority
            fresh ut).2 })

/-- The invariants of the container: index 0 is ordered by its comparison and the ids are
pairwise distinct (`hashed_unique`). -/
def DboStore.WF (s : DboStore) : Prop :=
  Sorted s ∧ (s.map (fun r => r.id)).Nodup

instance (l : List DboRecord) : Decidable (Sorted l) := by
  unfold Sorted; infer_instance

instance (s : DboStore) : Decidable s.WF := by
  unfold DboStore.WF; infer_instance

/-- One call of `addOrUpdateDirect`, as data. -/
structure Update where
  price : Nat
  size : ℚ
  nsecs : Int
  ssboe : Int
  usecs : Int
  id : String
  priority : Nat
  fresh : Bool
  ut : UpdateType
  deriving DecidableEq

/-- Apply one update to a store. -/
def DboStore.apply (s : DboStore) (u : Update) : Except String Unit × DboStore :=
  s.addOrUpdateDirect u.price u.size u.nsecs u.ssboe u.usecs u.id u.priority u.fresh u.ut

/-- A sequence of calls on one store, the caller going on with the next call after a call
that throws. -/
def DboStore.run (s : DboStore) : List Update → DboStore
  | [] => s
  | u :: us => DboStore.run (s.apply u).2 us

/-- One call of `DboBook::addOrUpdate`, as data. -/
structure BookCall where
  side : OrderSide
  price : Dbl
  size : ℚ
  nsecs : Int
  ssboe : Int
  usecs : Int
  id : String
  priority : Nat
  fresh : Bool
  ut : UpdateType
  deriving DecidableEq

/-- Apply one call of `DboBook::addOrUpdate` to a book. -/
def DboBook.apply (b : DboBook) (c : BookCall) : Except String Unit × DboBook :=
  b.addOrUpdate c.side c.price c.size c.nsecs c.ssboe c.usecs c.id c.priority c.fresh c.ut

/-- A sequence of calls of `DboBook::addOrUpdate` on one book. -/
def DboBook.run (b : DboBook) : List BookCall → DboBook
  | [] => b
  | c :: cs => DboBook.run (b.apply c).2 cs

/-- The three bids of `main.cpp`: the prices are the literals 11999.75, 11999.50 and
11998.00. -/
def mainBids : List BookCall :=
  [⟨OrderSide.osBid, Dbl.ofRatio 1199975 100, 10, 0, 0, 0, "2XGZ", 0, true, utNewOrChanged⟩,
   ⟨OrderSide.osBid, Dbl.ofRatio 1199950 100, 50, 0, 0, 0, "23GH", 0, true, utNewOrChanged⟩,
   ⟨OrderSide.osBid, Dbl.ofRatio 1199800 100, 20, 0, 0, 0, "AC12", 0, true, utNewOrChanged⟩]

/-- One line written by `printOrders`: the kind label, the price (the fixed-point value whose
quotient by `convertToPrice(1, numFrac)` is written) and the size. -/
structure PrintedOrder where
  kind : String
  price : Nat
  size : ℚ
  deriving DecidableEq

/-- The line `printOrders` writes for a record. -/
def printedOrder (a : DboRecord) : PrintedOrder :=
  ⟨if a.ut = utNewOrChanged then "NC" else "D", a.price, a.size⟩

/-- The loop of `DboStore::printOrders` (lines 151-158) from the counter value `i` on: the
lines it writes. -/
def printLoop (numOrders : Int) : Int → List DboRecord → List PrintedOrder
  | _, [] => []
  | i, a :: rest =>
    if i < numOrders then printedOrder a :: printLoop numOrders (i + 1) rest
    else []

/-- `DboStore::printOrders(numOrders)`: the lines written. -/
def DboStore.printOrders (s : DboStore) (numOrders : Int) : List PrintedOrder :=
  printLoop numOrders 0 s

/-- `DboBook::printOrders(s, numOrders)`. -/
def DboBook.printOrders (b : DboBook) (s : OrderSide) (numOrders : Int) : List PrintedOrder :=
  if s = OrderSide.osAsk then b._asks.printOrders numOrders
  else b._bids.printOrders numOrders

/-- What each call of a sequence of `DboBook::addOrUpdate` calls does: `ok ()` when it
returns, `error e` when it throws. -/
def DboBook.outcomes (b : DboBook) : List BookCall → List (Except String Unit)
  | [] => []
  | c :: cs => (b.apply c).1 :: DboBook.outcomes (b.apply c).2 cs

/-- The six ask updates of `main.cpp`: the prices are the literals 12000.00, 12000.25 and
12001.00. -/
def mainAsks : List BookCall :=
  [⟨OrderSide.osAsk, Dbl.ofRatio 1200000 100, 10, 0, 0, 0, "A2B2", 0, true, utNewOrChanged⟩,
   ⟨OrderSide.osAsk, Dbl.ofRatio 1200025 100, 77, 0, 0, 0, "1FF3", 0, true, utNewOrChanged⟩,
   ⟨OrderSide.osAsk, Dbl.ofRatio 1200025 100, 77, 0, 0, 0, "1FF3", 0, true, utDeleted⟩,
   ⟨OrderSide.osAsk, Dbl.ofRatio 1200100 100, 11, 0, 0, 0, "1XFY", 0, true, utNewOrChanged⟩,
   ⟨OrderSide.osAsk, Dbl.ofRatio 1200025 100, 22, 0, 0, 0, "X5FY", 0, true, utNewOrChanged⟩,
   ⟨OrderSide.osAsk, Dbl.ofRatio 1200025 100, 52, 0, 0, 0, "X5FY", 0, true, utNewOrChanged⟩]

/-! # Theorems -/

/-! ## The comparison of the ordered index -/

theorem keyLt_iff (a b : DboRecord) :
    keyLt a b = true ↔
      a.ut.toNat < b.ut.toNat ∨ (a.ut.toNat = b.ut.toNat ∧ a.price < b.price) := by
  simp only [keyLt, Bool.or_eq_true, Bool.and_eq_true, decide_eq_true_eq, Bool.not_eq_true',
    decide_eq_false_iff_not]
  omega

theorem keyLt_false_iff (a b : DboRecord) :
    keyLt a b = false ↔
      b.ut.toNat < a.ut.toNat ∨ (a.ut.toNat = b.ut.toNat ∧ b.price ≤ a.price) := by
  rw [← Bool.not_eq_true, keyLt_iff]
  omega

theorem keyLt_irrefl (a : DboRecord) : keyLt a a = false := by
  rw [keyLt_false_iff]; omega

theorem keyLe_trans {a b c : DboRecord} (h1 : keyLt b a = false) (h2 : keyLt c b = false) :
    keyLt c a = false := by
  rw [keyLt_false_iff] at *; omega

theorem keyLe_of_lt {a b : DboRecord} (h : keyLt a b = true) : keyLt b a = false := by
  rw [keyLt_false_iff]; rw [keyLt_iff] at h; omega

theorem toNat_eq_zero_iff (k : UpdateType) : k.toNat = 0 ↔ k = utNewOrChanged := by
  cases k <;> simp [UpdateType.toNat]

theorem toNat_eq_one_iff (k : UpdateType) : k.toNat = 1 ↔ k = utDeleted := by
  cases k <;> simp [UpdateType.toNat]

theorem toNat_le_one (k : UpdateType) : k.toNat ≤ 1 := by
  cases k <;> simp [UpdateType.toNat]

/-! ## Linking a node into the ordered index -/

theorem linkInsert_perm (r : DboRecord) (l : List DboRecord) :
    (linkInsert r l).Perm (r :: l) := by
  induction l with
  | nil => simp [linkInsert]
  | cons x xs ih =>
    unfold linkInsert
    split
    · exact List.Perm.refl _
    · exact (List.Perm.cons x ih).trans (List.Perm.swap r x xs)

theorem mem_linkInsert {r y : DboRecord} {l : List DboRecord} :
    y ∈ linkInsert r l ↔ y = r ∨ y ∈ l := by
  rw [(linkInsert_perm r l).mem_iff, List.mem_cons]

theorem linkInsert_sorted (r : DboRecord) (l : List DboRecord) (h : Sorted l) :
    Sorted (linkInsert r l) := by
  induction l with
  | nil => simp [linkInsert, Sorted]
  | cons x xs ih =>
    unfold Sorted at h ih ⊢
    rw [List.pairwise_cons] at h
    unfold linkInsert
    split
    · rename_i hlt
      rw [List.pairwise_cons, List.pairwise_cons]
      refine ⟨?_, h.1, h.2⟩
      intro y hy
      rcases List.mem_cons.1 hy with rfl | hy
      · exact keyLe_of_lt hlt
      · exact keyLe_trans (keyLe_of_lt hlt) (h.1 y hy)
    · rename_i hlt
      rw [List.pairwise_cons]
      refine ⟨?_, ih h.2⟩
      intro y hy
      rcases mem_linkInsert.1 hy with rfl | hy
      · simpa using hlt
      · exact h.1 y hy

/-! ## The hashed index -/

theorem find_eq_none_iff (s : DboStore) (id : String) :
    s.find id = none ↔ ∀ r ∈ s, r.id ≠ id := by
  induction s with
  | nil => simp [DboStore.find]
  | cons x xs ih =>
    unfold DboStore.find
    by_cases hx : x.id = id
    · simp [hx]
    · simp [hx, ih]

/-- What `find` returns is the position of a record with the id, the first one. -/
theorem find_eq_some (s : DboStore) (id : String) (i : Nat) (h : s.find id = some i) :
    ∃ x, s[i]? = some x ∧ x.id = id ∧ s = s.take i ++ x :: s.drop (i + 1) ∧
      ∀ y ∈ s.take i, y.id ≠ id := by
  induction s generalizing i with
  | nil => simp [DboStore.find] at h
  | cons x xs ih =>
    unfold DboStore.find at h
    by_cases hx : x.id = id
    · simp only [hx, if_true, Option.some.injEq] at h
      subst h
      exact ⟨x, by simp, hx, by simp, by simp⟩
    · simp only [hx, if_false, Option.map_eq_some'] at h
      obtain ⟨j, hj, rfl⟩ := h
      obtain ⟨y, hy1, hy2, hy3, hy4⟩ := ih j hj
      refine ⟨y, by simpa using hy1, hy2, ?_, ?_⟩
      · simp only [List.take_succ_cons, List.drop_succ_cons, List.cons_append]
        rw [← hy3]
      · intro z hz
        simp only [List.take_succ_cons, List.mem_cons] at hz
        rcases hz with rfl | hz
        · exact hx
        · exact hy4 z hz

theorem record_eq_none_iff (s : DboStore) (id : String) :
    s.record id = none ↔ ∀ r ∈ s, r.id ≠ id := by
  unfold DboStore.record
  constructor
  · intro h
    cases hf : s.find id with
    | none => exact (find_eq_none_iff s id).1 hf
    | some i =>
      obtain ⟨x, hx, _⟩ := find_eq_some s id i hf
      rw [hf, Option.some_bind, hx] at h
      cases h
  · intro h
    rw [(find_eq_none_iff s id).2 h]
    rfl

/-- A record found through the identity view is a record of the store with that id. -/
theorem record_eq_some (s : DboStore) (id : String) (x : DboRecord)
    (h : s.record id = some x) : x ∈ s ∧ x.id = id := by
  unfold DboStore.record at h
  cases hf : s.find id with
  | none => rw [hf] at h; simp at h
  | some i =>
    obtain ⟨y, hy, hid, _⟩ := find_eq_some s id i hf
    rw [hf] at h
    simp only [Option.some_bind, hy, Option.some.injEq] at h
    subst h
    exact ⟨List.getElem?_mem hy, hid⟩

/-- With pairwise distinct ids the identity view finds exactly the record with the id. -/
theorem record_of_mem (s : DboStore) (hn : (s.map (fun r => r.id)).Nodup) (x : DboRecord)
    (hx : x ∈ s) : s.record x.id = some x := by
  cases h : s.record x.id with
  | none => exact absurd rfl ((record_eq_none_iff s x.id).1 h x hx)
  | some y =>
    obtain ⟨hy, hid⟩ := record_eq_some s x.id y h
    rw [List.inj_on_of_nodup_map hn hy hx hid]

/-! ## Keeping a modified node in place -/

theorem sorted_le_getLast {l : List DboRecord} {y : DboRecord} (h : Sorted l)
    (hy : l.getLast? = some y) : ∀ a ∈ l, keyLt y a = false := by
  obtain ⟨ys, rfl⟩ := List.getLast?_eq_some_iff.1 hy
  intro a ha
  rcases List.mem_append.1 ha with ha | ha
  · exact (List.pairwise_append.1 h).2.2 a ha y (by simp)
  · rw [List.mem_singleton.1 ha]; exact keyLt_irrefl y

theorem sorted_head_le {l : List DboRecord} {y : DboRecord} (h : Sorted l)
    (hy : l.head? = some y) : ∀ a ∈ l, keyLt a y = false := by
  cases l with
  | nil => simp at hy
  | cons z zs =>
    simp only [List.head?_cons, Option.some.injEq] at hy
    subst hy
    intro a ha
    rcases List.mem_cons.1 ha with rfl | ha
    · exact keyLt_irrefl _
    · exact (List.pairwise_cons.1 h).1 a ha

/-- A node whose key did not change is in place. -/
theorem inPlace_self {pre post : List DboRecord} {x v : DboRecord}
    (h : Sorted (pre ++ x :: post)) (hut : v.ut = x.ut) (hp : v.price = x.price) :
    inPlace pre v post = true := by
  have hk1 : ∀ a, keyLt v a = keyLt x a := fun a => by simp [keyLt, hut, hp]
  have hk2 : ∀ a, keyLt a v = keyLt a x := fun a => by simp [keyLt, hut, hp]
  obtain ⟨_, h2, h3⟩ := List.pairwise_append.1 h
  unfold inPlace
  rw [Bool.and_eq_true]
  constructor
  · cases hl : pre.getLast? with
    | none => rfl
    | some y =>
      have hy : y ∈ pre := List.mem_of_getLast?_eq_some hl
      simp only [hk1, Bool.not_eq_true']
      exact h3 y hy x (by simp)
  · cases hh : post.head? with
    | none => rfl
    | some y =>
      have hy : y ∈ post := List.mem_of_mem_head? hh
      simp only [hk2, Bool.not_eq_true']
      exact (List.pairwise_cons.1 h2).1 y hy

/-- A modified node that passes `in_place` leaves the index sorted. -/
theorem sorted_of_inPlace {pre post : List DboRecord} {x v : DboRecord}
    (h : Sorted (pre ++ x :: post)) (hin : inPlace pre v post = true) :
    Sorted (pre ++ v :: post) := by
  obtain ⟨h1, h2, h3⟩ := List.pairwise_append.1 h
  obtain ⟨h2a, h2b⟩ := List.pairwise_cons.1 h2
  unfold inPlace at hin
  rw [Bool.and_eq_true] at hin
  obtain ⟨hl, hr⟩ := hin
  have hpre : ∀ a ∈ pre, keyLt v a = false := by
    cases hg : pre.getLast? with
    | none =>
      rw [List.getLast?_eq_none_iff.1 hg]
      intro a ha; cases ha
    | some y =>
      rw [hg] at hl
      intro a ha
      exact keyLe_trans (sorted_le_getLast h1 hg a ha) (by simpa using hl)
  have hpost : ∀ b ∈ post, keyLt b v = false := by
    cases hg : post.head? with
    | none =>
      rw [List.head?_eq_none_iff.1 hg]
      intro a ha; cases ha
    | some y =>
      rw [hg] at hr
      intro b hb
      exact keyLe_trans (by simpa using hr) (sorted_head_le h2b hg b hb)
  unfold Sorted
  rw [List.pairwise_append]
  refine ⟨h1, List.pairwise_cons.2 ⟨hpost, h2b⟩, ?_⟩
  intro a ha b hb
  rcases List.mem_cons.1 hb with rfl | hb
  · exact hpre a ha
  · exact h3 a ha b (List.mem_cons_of_mem _ hb)

theorem sorted_erase {pre post : List DboRecord} {x : DboRecord}
    (h : Sorted (pre ++ x :: post)) : Sorted (pre ++ post) := by
  obtain ⟨h1, h2, h3⟩ := List.pairwise_append.1 h
  unfold Sorted
  rw [List.pairwise_append]
  exact ⟨h1, (List.pairwise_cons.1 h2).2, fun a ha b hb => h3 a ha b (List.mem_cons_of_mem _ hb)⟩

/-! ## `addOrUpdateDirect`, case by case -/

theorem updateRecord_id {price : Nat} {size : ℚ} {nsecs ssboe usecs : Int} {priority : Nat}
    {fresh : Bool} {ut : UpdateType} {r v : DboRecord}
    (h : updateRecord price size nsecs ssboe usecs priority fresh ut r = .ok v) :
    v.id = r.id := by
  unfold updateRecord at h
  split at h
  · cases h; rfl
  · split at h
    · cases h
    · cases h; rfl

theorem find_append_cons (pre post : List DboRecord) (x : DboRecord) (id : String)
    (hpre : ∀ y ∈ pre, y.id ≠ id) (hx : x.id = id) :
    DboStore.find (pre ++ x :: post) id = some pre.length := by
  induction pre with
  | nil => simp [DboStore.find, hx]
  | cons y ys ih =>
    have hy : y.id ≠ id := hpre y (by simp)
    have := ih (fun z hz => hpre z (List.mem_cons_of_mem _ hz))
    simp [DboStore.find, hy, this]

/-- A store with pairwise distinct ids splits around the record of an id, and no other
record has this id. -/
theorem exists_split (s : DboStore) (hn : (s.map (fun r => r.id)).Nodup) (id : String)
    (x : DboRecord) (h : s.record id = some x) :
    ∃ pre post, s = pre ++ x :: post ∧ x.id = id ∧ ∀ y ∈ pre ++ post, y.id ≠ id := by
  obtain ⟨hx, hid⟩ := record_eq_some s id x h
  obtain ⟨pre, post, rfl⟩ := List.append_of_mem hx
  refine ⟨pre, post, rfl, hid, ?_⟩
  intro y hy
  have hperm : (pre ++ x :: post).Perm (x :: (pre ++ post)) := List.perm_middle
  have hn2 := (hperm.map (fun r => r.id)).nodup_iff.1 hn
  rw [List.map_cons, List.nodup_cons] at hn2
  intro hyid
  apply hn2.1
  rw [hid, ← hyid]
  exact List.mem_map_of_mem _ hy

/-- The call on an id the store does not hold: `emplace` links the new record. -/
theorem addOrUpdateDirect_absent (s : DboStore) (price : Nat) (size : ℚ)
    (nsecs ssboe usecs : Int) (id : String) (priority : Nat) (fresh : Bool) (ut : UpdateType)
    (h : s.record id = none) :
    s.addOrUpdateDirect price size nsecs ssboe usecs id priority fresh ut =
      (.ok (), linkInsert ⟨price, size, nsecs, ssboe, usecs, id, priority, fresh, ut⟩ s) := by
  have hall := (record_eq_none_iff s id).1 h
  have hf := (find_eq_none_iff s id).2 hall
  have hany : s.any (fun x => decide (x.id = id)) = false := by
    rw [List.any_eq_false]
    intro y hy
    simpa using hall y hy
  simp [DboStore.addOrUpdateDirect, hf, DboStore.emplace, hany]

/-- The call on an id the store holds: `modify` runs the modifier on the record; the record is
erased when the modifier throws, and is kept in place or relinked otherwise. -/
theorem addOrUpdateDirect_present (pre post : List DboRecord) (x : DboRecord)
    (hids : ∀ y ∈ pre ++ post, y.id ≠ x.id) (price : Nat) (size : ℚ)
    (nsecs ssboe usecs : Int) (priority : Nat) (fresh : Bool) (ut : UpdateType) :
    DboStore.addOrUpdateDirect (pre ++ x :: post) price size nsecs ssboe usecs x.id priority
        fresh ut =
      match updateRecord price size nsecs ssboe usecs priority fresh ut x with
      | .error e => (.error e, pre ++ post)
      | .ok v => (.ok (), if inPlace pre v post then pre ++ v :: post
                          else linkInsert v (pre ++ post)) := by
  have hf := find_append_cons pre post x x.id
    (fun y hy => hids y (List.mem_append_left _ hy)) rfl
  have hget : (pre ++ x :: post)[pre.length]? = some x := by
    rw [List.getElem?_append_right (Nat.le_refl _)]; simp
  have htake : (pre ++ x :: post).take pre.length = pre := by simp
  have hdrop : (pre ++ x :: post).drop (pre.length + 1) = post := by simp
  unfold DboStore.addOrUpdateDirect
  rw [hf]
  simp only
  unfold DboStore.modify
  rw [hget]
  simp only [htake, hdrop]
  cases hu : updateRecord price size nsecs ssboe usecs priority fresh ut x with
  | error e => rfl
  | ok v =>
    have hvid := updateRecord_id hu
    have hany : (pre ++ post).any (fun y => decide (y.id = v.id)) = false := by
      rw [List.any_eq_false]
      intro y hy
      rw [hvid]
      simpa using hids y hy
    simp only [hany, Bool.false_eq_true, if_false]
    by_cases hin : inPlace pre v post = true
    · simp only [hin, if_true]
    · simp only [hin, Bool.false_eq_true, if_false]

/-! ## The container invariants are kept by every call -/

theorem nodup_ids_replace {pre post : List DboRecord} {x v : DboRecord} (hid : v.id = x.id)
    {l : List DboRecord} (hl : l.Perm (v :: (pre ++ post)))
    (hn : ((pre ++ x :: post).map (fun r => r.id)).Nodup) :
    (l.map (fun r => r.id)).Nodup := by
  have h1 : (l.map (fun r => r.id)).Perm (((pre ++ x :: post)).map (fun r => r.id)) := by
    refine (hl.map _).trans ?_
    rw [List.map_cons, hid, ← List.map_cons (fun r => r.id) x (pre ++ post)]
    exact (List.perm_middle.map _).symm
  exact h1.nodup_iff.2 hn

theorem addOrUpdateDirect_WF (s : DboStore) (hwf : s.WF) (price : Nat) (size : ℚ)
    (nsecs ssboe usecs : Int) (id : String) (priority : Nat) (fresh : Bool) (ut : UpdateType) :
    (s.addOrUpdateDirect price size nsecs ssboe usecs id priority fresh ut).2.WF := by
  cases h : s.record id with
  | none =>
    rw [addOrUpdateDirect_absent s _ _ _ _ _ _ _ _ _ h]
    refine ⟨linkInsert_sorted _ _ hwf.1, ?_⟩
    rw [((linkInsert_perm _ s).map (fun r => r.id)).nodup_iff, List.map_cons, List.nodup_cons]
    refine ⟨?_, hwf.2⟩
    intro hmem
    obtain ⟨y, hy, hyid⟩ := List.mem_map.1 hmem
    exact (record_eq_none_iff s id).1 h y hy hyid
  | some x =>
    obtain ⟨pre, post, rfl, rfl, hids⟩ := exists_split s hwf.2 id x h
    rw [addOrUpdateDirect_present pre post x hids]
    cases hu : updateRecord price size nsecs ssboe usecs priority fresh ut x with
    | error e =>
      refine ⟨sorted_erase hwf.1, ?_⟩
      exact List.Nodup.sublist
        (((List.Sublist.refl pre).append (List.sublist_cons_self x post)).map _) hwf.2
    | ok v =>
      have hvid := updateRecord_id hu
      simp only
      by_cases hin : inPlace pre v post = true
      · simp only [hin, if_true]
        exact ⟨sorted_of_inPlace hwf.1 hin, nodup_ids_replace hvid List.perm_middle hwf.2⟩
      · simp only [hin, if_false]
        exact ⟨linkInsert_sorted _ _ (sorted_erase hwf.1),
          nodup_ids_replace hvid (linkInsert_perm _ _) hwf.2⟩

theorem WF_nil : DboStore.WF [] := ⟨List.Pairwise.nil, List.nodup_nil⟩

theorem run_WF (us : List Update) (s : DboStore) (hwf : s.WF) : (s.run us).WF := by
  induction us generalizing s with
  | nil => exact hwf
  | cons u us ih => exact ih _ (addOrUpdateDirect_WF s hwf _ _ _ _ _ _ _ _ _)

/-- In a sorted index no `utDeleted` record is followed by a `utNewOrChanged` record. -/
theorem sorted_live_first {l : List DboRecord} (h : Sorted l) :
    l.Pairwise (fun a b => a.ut = utDeleted → b.ut = utDeleted) := by
  refine List.Pairwise.imp ?_ h
  intro a b hab ha
  rw [keyLt_false_iff] at hab
  rw [← toNat_eq_one_iff] at ha ⊢
  have := toNat_le_one b.ut
  omega

/-! ## Upsert: discarded, rejected and erased updates -/

theorem mem_relinked (pre post : List DboRecord) (v : DboRecord) :
    v ∈ (if inPlace pre v post = true then pre ++ v :: post else linkInsert v (pre ++ post)) := by
  split
  · simp
  · exact mem_linkInsert.2 (Or.inl rfl)

/-- An update with `fresh = false` on a record with `fresh = true` returns and changes
nothing. -/
theorem addOrUpdateDirect_stale (s : DboStore) (hwf : s.WF) (id : String) (x : DboRecord)
    (hx : s.record id = some x) (hfresh : x.fresh = true) (price : Nat) (size : ℚ)
    (nsecs ssboe usecs : Int) (priority : Nat) (ut : UpdateType) :
    s.addOrUpdateDirect price size nsecs ssboe usecs id priority false ut = (.ok (), s) := by
  obtain ⟨pre, post, rfl, rfl, hids⟩ := exists_split s hwf.2 id x hx
  rw [addOrUpdateDirect_present pre post x hids]
  have hu : updateRecord price size nsecs ssboe usecs priority false ut x = .ok x := by
    simp [updateRecord, hfresh]
  rw [hu]
  simp only [inPlace_self hwf.1 rfl rfl, if_true]

/-- A real-time delete (`fresh = true`, `utDeleted`) always returns and leaves exactly the
deleted record under the id. -/
theorem addOrUpdateDirect_realtime_delete (s : DboStore) (hwf : s.WF) (id : String)
    (price : Nat) (size : ℚ) (nsecs ssboe usecs : Int) (priority : Nat) :
    (s.addOrUpdateDirect price size nsecs ssboe usecs id priority true utDeleted).2.record id =
      some ⟨price, size, nsecs, ssboe, usecs, id, priority, true, utDeleted⟩ := by
  have hwf2 := addOrUpdateDirect_WF s hwf price size nsecs ssboe usecs id priority true utDeleted
  refine record_of_mem _ hwf2.2 ⟨price, size, nsecs, ssboe, usecs, id, priority, true, utDeleted⟩ ?_
  cases h : s.record id with
  | none =>
    rw [addOrUpdateDirect_absent s _ _ _ _ _ _ _ _ _ h]
    exact mem_linkInsert.2 (Or.inl rfl)
  | some x =>
    obtain ⟨pre, post, rfl, rfl, hids⟩ := exists_split s hwf.2 id x h
    rw [addOrUpdateDirect_present pre post x hids]
    have hu : updateRecord price size nsecs ssboe usecs priority true utDeleted x =
        .ok ⟨price, size, nsecs, ssboe, usecs, x.id, priority, true, utDeleted⟩ := by
      simp [updateRecord]
    rw [hu]
    exact mem_relinked pre post _

/-- C1 (freshness monotonicity).  In a store that satisfies the container invariants, an
upsert with `fresh = false` for an id whose record has `fresh = true` returns without error
and leaves the store, hence every field and the position of the record, unchanged, whatever
the price, size, timestamps, priority and kind of the update.  In particular, after a
real-time `utDeleted` update for an id, an image `utNewOrChanged` update for the same id
returns without error and changes nothing: the record stays the deleted one. -/
theorem stale_update_is_discarded (s : DboStore) (hwf : s.WF) (id : String) (x : DboRecord)
    (price : Nat) (size : ℚ) (nsecs ssboe usecs : Int) (priority : Nat) (ut : UpdateType)
    (p1 : Nat) (z1 : ℚ) (a1 b1 c1 : Int) (q1 : Nat) :
    (s.record id = some x → x.fresh = true →
      s.addOrUpdateDirect price size nsecs ssboe usecs id priority false ut = (.ok (), s)) ∧
    ((s.addOrUpdateDirect p1 z1 a1 b1 c1 id q1 true utDeleted).2.addOrUpdateDirect
        price size nsecs ssboe usecs id priority false utNewOrChanged =
      (.ok (), (s.addOrUpdateDirect p1 z1 a1 b1 c1 id q1 true utDeleted).2)) ∧
    ((s.addOrUpdateDirect p1 z1 a1 b1 c1 id q1 true utDeleted).2.record id =
      some ⟨p1, z1, a1, b1, c1, id, q1, true, utDeleted⟩) := by
  refine ⟨fun hx hf => addOrUpdateDirect_stale s hwf id x hx hf _ _ _ _ _ _ _, ?_,
    addOrUpdateDirect_realtime_delete s hwf id p1 z1 a1 b1 c1 q1⟩
  exact addOrUpdateDirect_stale _ (addOrUpdateDirect_WF s hwf _ _ _ _ _ _ _ _ _) id _
    (addOrUpdateDirect_realtime_delete s hwf id p1 z1 a1 b1 c1 q1) rfl _ _ _ _ _ _ _

/-- C1 at a store holding one fresh record: the stale update is discarded. -/
theorem stale_update_is_discarded_witness :
    DboStore.WF [⟨5, 7, 1, 2, 3, "A2B2", 4, true, utNewOrChanged⟩] ∧
    DboStore.record [⟨5, 7, 1, 2, 3, "A2B2", 4, true, utNewOrChanged⟩] "A2B2" =
      some ⟨5, 7, 1, 2, 3, "A2B2", 4, true, utNewOrChanged⟩ ∧
    DboStore.addOrUpdateDirect [⟨5, 7, 1, 2, 3, "A2B2", 4, true, utNewOrChanged⟩]
        9 8 0 0 0 "A2B2" 0 false utDeleted =
      (.ok (), [⟨5, 7, 1, 2, 3, "A2B2", 4, true, utNewOrChanged⟩]) :=
  ⟨by decide, by decide,
    (stale_update_is_discarded [⟨5, 7, 1, 2, 3, "A2B2", 4, true, utNewOrChanged⟩] (by decide)
      "A2B2" ⟨5, 7, 1, 2, 3, "A2B2", 4, true, utNewOrChanged⟩ 9 8 0 0 0 0 utDeleted
      6 1 0 0 0 0).1 (by decide) rfl⟩

/-- What a call on a present id returns is what the modifier does on the record found. -/
theorem addOrUpdateDirect_fst (s : DboStore) (id : String) (x : DboRecord)
    (hx : s.record id = some x) (price : Nat) (size : ℚ) (nsecs ssboe usecs : Int)
    (priority : Nat) (fresh : Bool) (ut : UpdateType) :
    (s.addOrUpdateDirect price size nsecs ssboe usecs id priority fresh ut).1 =
      (updateRecord price size nsecs ssboe usecs priority fresh ut x).map (fun _ => ()) := by
  unfold DboStore.record at hx
  cases hf : s.find id with
  | none => rw [hf] at hx; cases hx
  | some i =>
    rw [hf, Option.some_bind] at hx
    unfold DboStore.addOrUpdateDirect DboStore.modify
    rw [hf]
    simp only [hx]
    cases updateRecord price size nsecs ssboe usecs priority fresh ut x with
    | error e => rfl
    | ok v =>
      simp only
      split_ifs <;> rfl

/-- C2, as the code has it (deletion terminality, failure).  For every store and every id
whose record has kind `utDeleted`, an upsert for that id with kind `utNewOrChanged` fails with
the consistency error "order is marked as deleted" for every combination of the fresh flags
but one: when the existing record is fresh and the incoming update is not, the upsert returns
without error (it is the silently discarded update). -/
theorem deleted_rejects_new_unless_stale (s : DboStore) (id : String) (x : DboRecord)
    (hx : s.record id = some x) (hdel : x.ut = utDeleted) (price : Nat) (size : ℚ)
    (nsecs ssboe usecs : Int) (priority : Nat) (fresh : Bool) :
    (¬ (x.fresh = true ∧ fresh = false) →
      (s.addOrUpdateDirect price size nsecs ssboe usecs id priority fresh utNewOrChanged).1 =
        .error "order is marked as deleted") ∧
    ((x.fresh = true ∧ fresh = false) →
      (s.addOrUpdateDirect price size nsecs ssboe usecs id priority fresh utNewOrChanged).1 =
        .ok ()) := by
  rw [addOrUpdateDirect_fst s id x hx]
  constructor
  · intro h
    have hc : (x.fresh && !fresh) = false := by
      cases hxf : x.fresh <;> cases hf : fresh <;> simp_all
    simp [updateRecord, hc, hdel, Except.map]
  · rintro ⟨h1, h2⟩
    simp [updateRecord, h1, h2, Except.map]

/-- C2 at a store holding one deleted record: a fresh resurrection is rejected. -/
theorem deleted_rejects_new_unless_stale_witness :
    DboStore.record [⟨5, 7, 0, 0, 0, "1FF3", 0, true, utDeleted⟩] "1FF3" =
      some ⟨5, 7, 0, 0, 0, "1FF3", 0, true, utDeleted⟩ ∧
    (DboStore.addOrUpdateDirect [⟨5, 7, 0, 0, 0, "1FF3", 0, true, utDeleted⟩]
        5 7 0 0 0 "1FF3" 0 true utNewOrChanged).1 = .error "order is marked as deleted" :=
  ⟨by decide,
    (deleted_rejects_new_unless_stale [⟨5, 7, 0, 0, 0, "1FF3", 0, true, utDeleted⟩] "1FF3"
      ⟨5, 7, 0, 0, 0, "1FF3", 0, true, utDeleted⟩ (by decide) rfl 5 7 0 0 0 0 true).1
      (by decide)⟩

/-- C2, as stated, fails: the record of "1FF3" is `utDeleted` (and fresh), the store satisfies
the container invariants, and the upsert with kind `utNewOrChanged` and `fresh = false`
returns without error. -/
theorem deleted_rejects_new_counterexample :
    DboStore.WF [⟨5, 7, 0, 0, 0, "1FF3", 0, true, utDeleted⟩] ∧
    (DboStore.record [⟨5, 7, 0, 0, 0, "1FF3", 0, true, utDeleted⟩] "1FF3").map (fun r => r.ut) =
      some utDeleted ∧
    (DboStore.addOrUpdateDirect [⟨5, 7, 0, 0, 0, "1FF3", 0, true, utDeleted⟩]
        5 7 0 0 0 "1FF3" 0 false utNewOrChanged).1 = .ok () ∧
    (DboStore.addOrUpdateDirect [⟨5, 7, 0, 0, 0, "1FF3", 0, true, utDeleted⟩]
        5 7 0 0 0 "1FF3" 0 false utNewOrChanged).1 ≠ .error "order is marked as deleted" := by
  decide

/-- C3 at its failing input: the record of "1FF3" is `utDeleted`; the upsert with kind
`utNewOrChanged` throws, and the store after the failed call has lost the record (the
container erases an element whose modifier throws), while the other record is kept. -/
theorem failed_upsert_erases_record :
    DboStore.addOrUpdateDirect
        [⟨3, 10, 0, 0, 0, "A2B2", 0, true, utNewOrChanged⟩,
         ⟨5, 77, 0, 0, 0, "1FF3", 0, true, utDeleted⟩]
        5 77 0 0 0 "1FF3" 0 true utNewOrChanged =
      (.error "order is marked as deleted", [⟨3, 10, 0, 0, 0, "A2B2", 0, true, utNewOrChanged⟩]) ∧
    DboStore.record
        (DboStore.addOrUpdateDirect
          [⟨3, 10, 0, 0, 0, "A2B2", 0, true, utNewOrChanged⟩,
           ⟨5, 77, 0, 0, 0, "1FF3", 0, true, utDeleted⟩]
          5 77 0 0 0 "1FF3" 0 true utNewOrChanged).2 "1FF3" = none := by
  decide

/-- C4 at its failing input: after "1FF3" is deleted, a first `utNewOrChanged` update for it
throws and erases the record, and the next `utNewOrChanged` update inserts the order anew: its
record is `utNewOrChanged` and it is counted by `getTopEntries`. -/
theorem deleted_order_resurrected :
    DboStore.run []
        [⟨5, 77, 0, 0, 0, "1FF3", 0, true, utNewOrChanged⟩,
         ⟨5, 77, 0, 0, 0, "1FF3", 0, true, utDeleted⟩] =
      [⟨5, 77, 0, 0, 0, "1FF3", 0, true, utDeleted⟩] ∧
    DboStore.run []
        [⟨5, 77, 0, 0, 0, "1FF3", 0, true, utNewOrChanged⟩,
         ⟨5, 77, 0, 0, 0, "1FF3", 0, true, utDeleted⟩,
         ⟨5, 77, 0, 0, 0, "1FF3", 0, true, utNewOrChanged⟩] = [] ∧
    DboStore.run []
        [⟨5, 77, 0, 0, 0, "1FF3", 0, true, utNewOrChanged⟩,
         ⟨5, 77, 0, 0, 0, "1FF3", 0, true, utDeleted⟩,
         ⟨5, 77, 0, 0, 0, "1FF3", 0, true, utNewOrChanged⟩,
         ⟨5, 77, 0, 0, 0, "1FF3", 0, true, utNewOrChanged⟩] =
      [⟨5, 77, 0, 0, 0, "1FF3", 0, true, utNewOrChanged⟩] ∧
    DboStore.getTopEntries
        (DboStore.run []
          [⟨5, 77, 0, 0, 0, "1FF3", 0, true, utNewOrChanged⟩,
           ⟨5, 77, 0, 0, 0, "1FF3", 0, true, utDeleted⟩,
           ⟨5, 77, 0, 0, 0, "1FF3", 0, true, utNewOrChanged⟩,
           ⟨5, 77, 0, 0, 0, "1FF3", 0, true, utNewOrChanged⟩]) 10 [] = [(5, 77)] := by
  decide

/-- C5 at its failing input: on an empty store, a `utDeleted` update for "1FF3" followed by a
`utNewOrChanged` update for "1FF3" (which throws) leaves no record at all, although one id
was seen. -/
theorem failed_upsert_loses_id :
    (DboStore.run []
        [⟨5, 77, 0, 0, 0, "1FF3", 0, true, utDeleted⟩,
         ⟨5, 77, 0, 0, 0, "1FF3", 0, true, utNewOrChanged⟩]).length = 0 ∧
    (([⟨5, 77, 0, 0, 0, "1FF3", 0, true, utDeleted⟩,
       ⟨5, 77, 0, 0, 0, "1FF3", 0, true, utNewOrChanged⟩] : List Update).map
        (fun u => u.id)).dedup.length = 1 ∧
    (DboStore.apply [⟨5, 77, 0, 0, 0, "1FF3", 0, true, utDeleted⟩]
        ⟨5, 77, 0, 0, 0, "1FF3", 0, true, utNewOrChanged⟩).1 =
      .error "order is marked as deleted" := by
  decide

/-- C6 (ordering invariant).  After any sequence of upsert calls on an initially empty store
(the caller going on after a call that throws), no `utDeleted` record of the ordered view is
followed by a `utNewOrChanged` record: every `utNewOrChanged` record precedes every
`utDeleted` record, whatever the prices. -/
theorem run_live_before_deleted (us : List Update) :
    (DboStore.run [] us).Pairwise (fun a b => a.ut = utDeleted → b.ut = utDeleted) :=
  sorted_live_first (run_WF us [] WF_nil).1

/-! ## `getTopEntries`: the scan of the ordered view -/

theorem assign_append (k : Nat) (v : ℚ) (m : PriceMap) (h : ∀ e ∈ m, e.1 < k) :
    PriceMap.assign k v m = m ++ [(k, v)] := by
  induction m with
  | nil => rfl
  | cons e rest ih =>
    obtain ⟨k', v'⟩ := e
    have hk : k' < k := h (k', v') (by simp)
    have h1 : ¬ k < k' := by omega
    have h2 : ¬ k = k' := by omega
    simp only [PriceMap.assign, h1, h2, if_false, List.cons_append]
    rw [ih (fun e he => h e (List.mem_cons_of_mem _ he))]

theorem length_assign_le (k : Nat) (v : ℚ) (m : PriceMap) :
    (PriceMap.assign k v m).length ≤ m.length + 1 := by
  induction m with
  | nil => simp [PriceMap.assign]
  | cons e rest ih =>
    obtain ⟨k', v'⟩ := e
    unfold PriceMap.assign
    split_ifs
    · simp
    · simp
    · simp only [List.length_cons]; omega

/-- The scan flushes the levels of the run it walks, in order, up to `nTopEntries` of them,
the level at price `0` being left out. -/
theorem topLoop_levels (n : Int) (l : List DboRecord) :
    ∀ (c : Nat) (v : ℚ) (k : Int) (m : PriceMap),
      (∀ a ∈ l, a.ut = utNewOrChanged) →
      (c :: l.map (fun r => r.price)).Pairwise (fun x y => x ≤ y) →
      (∀ e ∈ m, e.1 < c) →
      topFlush n (topLoop n l ⟨c, v, k, m⟩) =
        m ++ ((levelsFrom c v l).filter (fun e => decide (e.1 ≠ 0))).take (n - k).toNat := by
  induction l with
  | nil =>
    intro c v k m _ _ hm
    simp only [topLoop, topFlush, levelsFrom]
    by_cases hk : k < n
    · by_cases hc : c = 0
      · simp [hc]
      · have : (n - k).toNat = (n - k).toNat - 1 + 1 := by omega
        rw [assign_append c v m hm, this]
        simp [hk, hc]
    · have : (n - k).toNat = 0 := by omega
      simp [hk, this]
  | cons a rest ih =>
    intro c v k m hnc hsort hm
    have hanc : a.ut = utNewOrChanged := hnc a (by simp)
    have hrest : ∀ b ∈ rest, b.ut = utNewOrChanged := fun b hb =>
      hnc b (List.mem_cons_of_mem _ hb)
    rw [List.map_cons, List.pairwise_cons] at hsort
    have hca : c ≤ a.price := hsort.1 a.price (by simp)
    by_cases hk : k < n
    · have hk' : ¬ (k ≥ n) := by omega
      have hnd : ¬ a.ut = utDeleted := by rw [hanc]; decide
      by_cases hp : a.price = c
      · have hs2 : (c :: rest.map (fun r => r.price)).Pairwise (fun x y => x ≤ y) := by
          rw [List.pairwise_cons] at hsort ⊢
          exact ⟨fun y hy => hsort.1 y (List.mem_cons_of_mem _ hy), hsort.2.2⟩
        have := ih c (v + a.size) k m hrest hs2 hm
        simp only [topLoop, hk', hnd, hp, if_false, ne_eq, not_true_eq_false, levelsFrom,
          if_true]
        exact this
      · have hlt : c < a.price := by omega
        by_cases hc : c = 0
        · have hm' : ∀ e ∈ m, e.1 < a.price := fun e he => by
            have := hm e he; omega
          have := ih a.price a.size k m hrest hsort.2 hm'
          subst hc
          simp only [topLoop, hk', hnd, if_false, ne_eq, hp, not_false_eq_true, if_true,
            not_true_eq_false, levelsFrom]
          rw [this]
          simp
        · have hm' : ∀ e ∈ m ++ [(c, v)], e.1 < a.price := fun e he => by
            rcases List.mem_append.1 he with he | he
            · have := hm e he; omega
            · rw [List.mem_singleton.1 he]; exact hlt
          have := ih a.price a.size (k + 1) (m ++ [(c, v)]) hrest hsort.2 hm'
          have hn : (n - k).toNat = (n - (k + 1)).toNat + 1 := by omega
          simp only [topLoop, hk', hnd, if_false, ne_eq, hp, not_false_eq_true, if_true, hc,
            levelsFrom, assign_append c v m hm]
          rw [this, hn]
          simp [hc]
    · have hk' : k ≥ n := by omega
      have : (n - k).toNat = 0 := by omega
      simp [topLoop, hk', topFlush, hk, this]

/-- The scan stops at the first `utDeleted` record: it only walks the leading
`utNewOrChanged` records. -/
theorem topLoop_takeWhile (n : Int) (l : List DboRecord) (st : TopState) :
    topLoop n l st =
      topLoop n (l.takeWhile (fun r => decide (r.ut = utNewOrChanged))) st := by
  induction l generalizing st with
  | nil => rfl
  | cons a rest ih =>
    by_cases ha : a.ut = utNewOrChanged
    · have hnd : ¬ a.ut = utDeleted := by rw [ha]; decide
      rw [List.takeWhile_cons_of_pos (by simpa using ha)]
      simp only [topLoop, hnd, if_false]
      split_ifs <;> first | rfl | exact ih _
    · have hd : a.ut = utDeleted := by
        cases h : a.ut with
        | utNewOrChanged => exact absurd h ha
        | utDeleted => rfl
      rw [List.takeWhile_cons_of_neg (by simpa using ha)]
      simp only [topLoop, hd, if_true, ite_self]

/-- In a sorted index the leading `utNewOrChanged` records are all the `utNewOrChanged`
records. -/
theorem takeWhile_live_eq_live (s : DboStore) (hs : Sorted s) :
    s.takeWhile (fun r => decide (r.ut = utNewOrChanged)) = s.live := by
  induction s with
  | nil => rfl
  | cons a rest ih =>
    have hp := List.pairwise_cons.1 hs
    by_cases ha : a.ut = utNewOrChanged
    · rw [List.takeWhile_cons_of_pos (by simpa using ha)]
      unfold DboStore.live at ih ⊢
      rw [List.filter_cons_of_pos (by simpa using ha), ih hp.2]
    · have hd : a.ut = utDeleted := by
        cases h : a.ut with
        | utNewOrChanged => exact absurd h ha
        | utDeleted => rfl
      rw [List.takeWhile_cons_of_neg (by simpa using ha)]
      unfold DboStore.live
      rw [List.filter_cons_of_neg (by simpa using ha)]
      symm
      rw [List.filter_eq_nil_iff]
      intro b hb
      have := (List.pairwise_cons.1 (sorted_live_first hs)).1 b hb hd
      simp [this]

theorem mem_live {s : DboStore} {r : DboRecord} :
    r ∈ s.live ↔ r ∈ s ∧ r.ut = utNewOrChanged := by
  simp [DboStore.live]

/-- The `utNewOrChanged` records of a sorted index come in ascending price order. -/
theorem live_prices_sorted (s : DboStore) (hs : Sorted s) :
    (s.live.map (fun r => r.price)).Pairwise (fun x y => x ≤ y) := by
  rw [List.pairwise_map]
  have h1 : s.live.Pairwise (fun a b => keyLt b a = false) :=
    List.Pairwise.sublist (List.filter_sublist s) hs
  refine List.Pairwise.imp_of_mem ?_ h1
  intro a b ha hb hab
  rw [keyLt_false_iff, (mem_live.1 ha).2, (mem_live.1 hb).2] at hab
  simp only [UpdateType.toNat] at hab
  omega

theorem liveSizeAt_eq (s : DboStore) (p : Nat) : s.liveSizeAt p = sizeAt p s.live := by
  unfold DboStore.liveSizeAt sizeAt DboStore.live
  rw [List.filter_filter]
  congr 2
  apply List.filter_congr
  intro r _
  rw [Bool.and_comm]

/-- What `getTopEntries` returns on a sorted index: the first `nTopEntries` levels of non-zero
price of its `utNewOrChanged` records. -/
theorem getTopEntries_eq (s : DboStore) (hs : Sorted s) (n : Int) (m0 : PriceMap) :
    s.getTopEntries n m0 =
      ((levelsFrom 0 0 s.live).filter (fun e => decide (e.1 ≠ 0))).take n.toNat := by
  unfold DboStore.getTopEntries
  rw [topLoop_takeWhile, takeWhile_live_eq_live s hs]
  have h := topLoop_levels n s.live 0 0 0 [] (fun a ha => (mem_live.1 ha).2)
    (List.pairwise_cons.2 ⟨fun y _ => Nat.zero_le y, live_prices_sorted s hs⟩)
    (fun e he => by cases he)
  simpa [PriceMap.clear] using h

/-! ## The levels of a run sorted by price -/

theorem sizeAt_cons (p : Nat) (a : DboRecord) (rest : List DboRecord) :
    sizeAt p (a :: rest) = (if a.price = p then a.size else 0) + sizeAt p rest := by
  unfold sizeAt
  by_cases h : a.price = p
  · simp [List.filter_cons, h]
  · simp [List.filter_cons, h]

theorem sizeAt_eq_zero (p : Nat) (l : List DboRecord) (h : ∀ r ∈ l, r.price ≠ p) :
    sizeAt p l = 0 := by
  unfold sizeAt
  have : l.filter (fun r => decide (r.price = p)) = [] := by
    rw [List.filter_eq_nil_iff]
    intro r hr
    simpa using h r hr
  rw [this]; rfl

/-- The levels of a run sorted by price: the level in progress with the sizes at its price
added, and one level for every other price of the run, with the sum of the sizes at it. -/
theorem mem_levelsFrom (l : List DboRecord) :
    ∀ (c : Nat) (v : ℚ),
      (c :: l.map (fun r => r.price)).Pairwise (fun x y => x ≤ y) →
      ∀ (p : Nat) (w : ℚ), (p, w) ∈ levelsFrom c v l ↔
        (p = c ∧ w = v + sizeAt c l) ∨
        (p ≠ c ∧ p ∈ l.map (fun r => r.price) ∧ w = sizeAt p l) := by
  induction l with
  | nil =>
    intro c v _ p w
    simp [levelsFrom, sizeAt]
  | cons a rest ih =>
    intro c v hsort p w
    rw [List.map_cons, List.pairwise_cons] at hsort
    have hca : c ≤ a.price := hsort.1 a.price (by simp)
    have hge : ∀ y ∈ rest.map (fun r => r.price), a.price ≤ y :=
      (List.pairwise_cons.1 hsort.2).1
    by_cases hp : a.price = c
    · have hs2 : (c :: rest.map (fun r => r.price)).Pairwise (fun x y => x ≤ y) := by
        rw [List.pairwise_cons]
        exact ⟨fun y hy => hsort.1 y (List.mem_cons_of_mem _ hy), (List.pairwise_cons.1 hsort.2).2⟩
      simp only [levelsFrom, hp, if_true]
      rw [ih c (v + a.size) hs2 p w, sizeAt_cons c, sizeAt_cons p, hp]
      constructor
      · rintro (⟨h1, h2⟩ | ⟨h1, h2, h3⟩)
        · left; refine ⟨h1, ?_⟩; rw [h2]; simp; ring
        · right
          have : ¬ c = p := fun h => h1 h.symm
          exact ⟨h1, by simp [h2], by simp [this, h3]⟩
      · rintro (⟨h1, h2⟩ | ⟨h1, h2, h3⟩)
        · left; refine ⟨h1, ?_⟩; rw [h2]; simp; ring
        · right
          have hcp : ¬ c = p := fun h => h1 h.symm
          refine ⟨h1, ?_, by simpa [hcp] using h3⟩
          rcases List.mem_cons.1 h2 with h2 | h2
          · exact absurd (h2.trans hp) h1
          · exact h2
    · have hlt : c < a.price := by omega
      have hzero : sizeAt c (a :: rest) = 0 := by
        apply sizeAt_eq_zero
        intro r hr
        rcases List.mem_cons.1 hr with rfl | hr
        · exact hp
        · have := hge r.price (List.mem_map_of_mem _ hr); omega
      simp only [levelsFrom, hp, if_false, List.mem_cons, Prod.mk.injEq]
      rw [ih a.price a.size hsort.2 p w, hzero, sizeAt_cons p]
      constructor
      · rintro (⟨h1, h2⟩ | ⟨h1, h2⟩ | ⟨h1, h2, h3⟩)
        · left; exact ⟨h1, by rw [h2]; simp⟩
        · right
          refine ⟨by omega, by simp [h1], ?_⟩
          rw [h2, h1]; simp
        · right
          have hne : ¬ a.price = p := fun h => h1 h.symm
          have : a.price ≤ p := hge p h2
          exact ⟨by omega, by simp [h2], by simp [hne, h3]⟩
      · rintro (⟨h1, h2⟩ | ⟨h1, h2, h3⟩)
        · left; exact ⟨h1, by rw [h2]; simp⟩
        · right
          by_cases hpa : p = a.price
          · left; refine ⟨hpa, ?_⟩; rw [h3, hpa]; simp
          · right
            have hne : ¬ a.price = p := fun h => hpa h.symm
            refine ⟨hpa, ?_, by simpa [hne] using h3⟩
            rcases List.mem_cons.1 h2 with h2 | h2
            · exact absurd h2 hpa
            · exact h2

/-- The levels of a run sorted by price come in strictly ascending price order. -/
theorem levelsFrom_keys_sorted (l : List DboRecord) :
    ∀ (c : Nat) (v : ℚ),
      (c :: l.map (fun r => r.price)).Pairwise (fun x y => x ≤ y) →
      (levelsFrom c v l).Pairwise (fun e f => e.1 < f.1) := by
  induction l with
  | nil => intro c v _; simp [levelsFrom]
  | cons a rest ih =>
    intro c v hsort
    have hsort' := hsort
    rw [List.map_cons, List.pairwise_cons] at hsort
    have hca : c ≤ a.price := hsort.1 a.price (by simp)
    by_cases hp : a.price = c
    · have hs2 : (c :: rest.map (fun r => r.price)).Pairwise (fun x y => x ≤ y) := by
        rw [List.pairwise_cons]
        exact ⟨fun y hy => hsort.1 y (List.mem_cons_of_mem _ hy), (List.pairwise_cons.1 hsort.2).2⟩
      simp only [levelsFrom, hp, if_true]
      exact ih c _ hs2
    · simp only [levelsFrom, hp, if_false]
      rw [List.pairwise_cons]
      refine ⟨?_, ih a.price a.size hsort.2⟩
      rintro ⟨p, w⟩ he
      rcases (mem_levelsFrom rest a.price a.size hsort.2 p w).1 he with ⟨h1, _⟩ | ⟨_, h2, _⟩
      · simp only; omega
      · have := (List.pairwise_cons.1 hsort.2).1 p h2
        simp only; omega

/-! ## The bid side -/

set_option maxRecDepth 16384 in
/-- C7 at its failing input: the bids of `main.cpp`.  The ordered view of the bid store is
ascending by price, as on the ask side, and `getTopEntries(osBid, 2, m)` returns the two lowest
bids, 11998.00 and 11999.50, where the claim has the two highest, 11999.75 and 11999.50. -/
theorem bids_are_ascending :
    (DboBook.run ⟨[], []⟩ mainBids)._bids.map (fun r => r.price) =
      [11998000000000000, 11999500000000000, 11999750000000000] ∧
    (DboBook.run ⟨[], []⟩ mainBids).getTopEntries OrderSide.osBid 2 [] =
      [(11998000000000000, 20), (11999500000000000, 50)] ∧
    convertToPrice 1 numFrac = 1000000000000 := by
  decide

/-! ## Aggregation -/

/-- C8, as stated, fails at price `0`: the store holds one `utNewOrChanged` record, of price
`0`, the limit `1` is the number of distinct prices, and `getTopEntries` returns the empty
map, with no entry for the price `0`. -/
theorem zero_price_level_counterexample :
    DboStore.WF [⟨0, 7, 0, 0, 0, "A2B2", 0, true, utNewOrChanged⟩] ∧
    (∃ r ∈ ([⟨0, 7, 0, 0, 0, "A2B2", 0, true, utNewOrChanged⟩] : DboStore),
      r.ut = utNewOrChanged ∧ r.price = 0) ∧
    (((DboStore.live [⟨0, 7, 0, 0, 0, "A2B2", 0, true, utNewOrChanged⟩]).map
      (fun r => r.price)).dedup.length : Int) ≤ 1 ∧
    DboStore.getTopEntries [⟨0, 7, 0, 0, 0, "A2B2", 0, true, utNewOrChanged⟩] 1 [] = [] := by
  decide

theorem filter_key_eq_singleton (l : List (Nat × ℚ)) (hl : l.Pairwise (fun e f => e.1 < f.1))
    (p : Nat) (w : ℚ) (h : (p, w) ∈ l) :
    l.filter (fun e => decide (e.1 = p)) = [(p, w)] := by
  induction l with
  | nil => cases h
  | cons e rest ih =>
    obtain ⟨hlt, hrest⟩ := List.pairwise_cons.1 hl
    rcases List.mem_cons.1 h with h | h
    · subst h
      have : rest.filter (fun e => decide (e.1 = p)) = [] := by
        rw [List.filter_eq_nil_iff]
        intro f hf
        have := hlt f hf
        simp only [decide_eq_true_eq]
        omega
      simp [List.filter_cons, this]
    · have hne : ¬ e.1 = p := by
        have := hlt (p, w) h
        simp only at this
        omega
      rw [List.filter_cons_of_neg (by simpa using hne)]
      exact ih hrest h

/-- The levels of non-zero price of the `utNewOrChanged` records of a sorted index. -/
theorem mem_live_levels (s : DboStore) (hs : Sorted s) (p : Nat) (w : ℚ) :
    (p, w) ∈ (levelsFrom 0 0 s.live).filter (fun e => decide (e.1 ≠ 0)) ↔
      p ≠ 0 ∧ (∃ r ∈ s, r.ut = utNewOrChanged ∧ r.price = p) ∧ w = s.liveSizeAt p := by
  have hsort : (0 :: s.live.map (fun r => r.price)).Pairwise (fun x y => x ≤ y) :=
    List.pairwise_cons.2 ⟨fun y _ => Nat.zero_le y, live_prices_sorted s hs⟩
  rw [List.mem_filter, mem_levelsFrom s.live 0 0 hsort p w, liveSizeAt_eq]
  simp only [ne_eq, decide_eq_true_eq, List.mem_map]
  constructor
  · rintro ⟨h | ⟨h1, ⟨r, hr, hrp⟩, h3⟩, hp⟩
    · exact absurd h.1 hp
    · exact ⟨hp, ⟨r, (mem_live.1 hr).1, (mem_live.1 hr).2, hrp⟩, h3⟩
  · rintro ⟨hp, ⟨r, hr, hnc, hrp⟩, hw⟩
    exact ⟨Or.inr ⟨hp, ⟨r, mem_live.2 ⟨hr, hnc⟩, hrp⟩, hw⟩, hp⟩

theorem live_levels_sorted (s : DboStore) (hs : Sorted s) :
    ((levelsFrom 0 0 s.live).filter (fun e => decide (e.1 ≠ 0))).Pairwise
      (fun e f => e.1 < f.1) :=
  List.Pairwise.filter _ (levelsFrom_keys_sorted s.live 0 0
    (List.pairwise_cons.2 ⟨fun y _ => Nat.zero_le y, live_prices_sorted s hs⟩))

/-- There are no more levels of non-zero price than distinct prices among the
`utNewOrChanged` records. -/
theorem live_levels_length (s : DboStore) (hs : Sorted s) :
    ((levelsFrom 0 0 s.live).filter (fun e => decide (e.1 ≠ 0))).length ≤
      (s.live.map (fun r => r.price)).dedup.length := by
  have hnd : (((levelsFrom 0 0 s.live).filter (fun e => decide (e.1 ≠ 0))).map
      (fun e => e.1)).Nodup := by
    rw [List.Nodup, List.pairwise_map]
    exact List.Pairwise.imp (fun h => Nat.ne_of_lt h) (live_levels_sorted s hs)
  have hsub : ((levelsFrom 0 0 s.live).filter (fun e => decide (e.1 ≠ 0))).map (fun e => e.1) ⊆
      (s.live.map (fun r => r.price)).dedup := by
    intro k hk
    obtain ⟨⟨p, w⟩, he, rfl⟩ := List.mem_map.1 hk
    obtain ⟨_, ⟨r, hr, hnc, hrp⟩, _⟩ := (mem_live_levels s hs p w).1 he
    rw [List.mem_dedup]
    exact List.mem_map.2 ⟨r, mem_live.2 ⟨hr, hnc⟩, hrp⟩
  have := (List.subperm_of_subset hnd hsub).length_le
  simpa using this

/-- C8, as the code has it (aggregation correctness).  In a store that satisfies the
container invariants, for every price `p` other than `0` held by at least one
`utNewOrChanged` record and every limit at least as large as the number of distinct prices
among the `utNewOrChanged` records, the map returned by `getTopEntries` has exactly one entry
for `p`, and its value is the exact sum of the sizes of the `utNewOrChanged` records whose
price is `p`. -/
theorem level_size_is_sum (s : DboStore) (hwf : s.WF) (p : Nat) (hp : p ≠ 0)
    (hlive : ∃ r ∈ s, r.ut = utNewOrChanged ∧ r.price = p) (n : Int)
    (hn : ((s.live.map (fun r => r.price)).dedup.length : Int) ≤ n) (m0 : PriceMap) :
    (s.getTopEntries n m0).filter (fun e => decide (e.1 = p)) = [(p, s.liveSizeAt p)] := by
  rw [getTopEntries_eq s hwf.1]
  have hlen := live_levels_length s hwf.1
  rw [List.take_of_length_le (by omega)]
  exact filter_key_eq_singleton _ (live_levels_sorted s hwf.1) p _
    ((mem_live_levels s hwf.1 p _).2 ⟨hp, hlive, rfl⟩)

/-- C8 at a store with two live orders and one deleted order at the price 5. -/
theorem level_size_is_sum_witness :
    DboStore.WF [⟨5, 22, 0, 0, 0, "X5FY", 0, true, utNewOrChanged⟩,
      ⟨5, 10, 0, 0, 0, "A2B2", 0, true, utNewOrChanged⟩,
      ⟨5, 77, 0, 0, 0, "1FF3", 0, true, utDeleted⟩] ∧
    (DboStore.getTopEntries [⟨5, 22, 0, 0, 0, "X5FY", 0, true, utNewOrChanged⟩,
        ⟨5, 10, 0, 0, 0, "A2B2", 0, true, utNewOrChanged⟩,
        ⟨5, 77, 0, 0, 0, "1FF3", 0, true, utDeleted⟩] 1 [(3, 4)]).filter
        (fun e => decide (e.1 = 5)) =
      [(5, DboStore.liveSizeAt [⟨5, 22, 0, 0, 0, "X5FY", 0, true, utNewOrChanged⟩,
        ⟨5, 10, 0, 0, 0, "A2B2", 0, true, utNewOrChanged⟩,
        ⟨5, 77, 0, 0, 0, "1FF3", 0, true, utDeleted⟩] 5)] :=
  ⟨by decide,
    level_size_is_sum _ (by decide) 5 (by decide)
      ⟨⟨5, 22, 0, 0, 0, "X5FY", 0, true, utNewOrChanged⟩, by simp, rfl, rfl⟩ 1 (by decide)
      [(3, 4)]⟩

/-! ## Boundedness and the exclusion of deleted records -/

theorem topLoop_bound (n : Int) (l : List DboRecord) (st : TopState)
    (h1 : (st.m.length : Int) ≤ st.numEntries) (h2 : st.numEntries ≤ max n 0) :
    ((topLoop n l st).m.length : Int) ≤ (topLoop n l st).numEntries ∧
      (topLoop n l st).numEntries ≤ max n 0 := by
  induction l generalizing st with
  | nil => exact ⟨h1, h2⟩
  | cons a rest ih =>
    unfold topLoop
    split_ifs with hk hd hp hc
    · exact ⟨h1, h2⟩
    · exact ⟨h1, h2⟩
    · apply ih
      · have := length_assign_le st.currentPrice st.volume st.m
        simp only
        omega
      · simp only
        omega
    · exact ih _ h1 h2
    · exact ih _ h1 h2

/-- C9 (top-N boundedness).  For every store, every limit and every previous contents of the
output map, the map returned by `getTopEntries` has at most `limit` entries when the limit is
positive and none when it is not; for the limit `0` it is empty. -/
theorem getTopEntries_length_le (s : DboStore) (n : Int) (m0 : PriceMap) :
    ((s.getTopEntries n m0).length : Int) ≤ max n 0 ∧ s.getTopEntries 0 m0 = [] := by
  have key : ∀ k : Int, ((s.getTopEntries k m0).length : Int) ≤ max k 0 := by
    intro k
    have hb := topLoop_bound k s ⟨0, 0, 0, m0.clear⟩ (by simp [PriceMap.clear]) (by simp)
    unfold DboStore.getTopEntries topFlush
    split_ifs with hc
    · have := length_assign_le (topLoop k s ⟨0, 0, 0, m0.clear⟩).currentPrice
        (topLoop k s ⟨0, 0, 0, m0.clear⟩).volume (topLoop k s ⟨0, 0, 0, m0.clear⟩).m
      omega
    · omega
  refine ⟨key n, ?_⟩
  have := key 0
  simp only [max_self, Int.natCast_nonpos_iff] at this
  exact List.length_eq_zero.1 this

/-- C10 (deleted records are excluded).  In a store that satisfies the container invariants,
for every limit, every entry of the map returned by `getTopEntries` has the price of at least
one `utNewOrChanged` record of the store and a price other than `0`, its value is the exact sum
of the sizes of the `utNewOrChanged` records at that price, the map is the one returned on the
store without its `utDeleted` records, and a price whose only records are `utDeleted` is no key
of the map. -/
theorem getTopEntries_ignores_deleted (s : DboStore) (hwf : s.WF) (n : Int) (m0 : PriceMap) :
    (∀ e ∈ s.getTopEntries n m0,
      (∃ r ∈ s, r.ut = utNewOrChanged ∧ r.price = e.1) ∧ e.2 = s.liveSizeAt e.1) ∧
    s.getTopEntries n m0 = DboStore.getTopEntries s.live n m0 ∧
    (∀ p, (∀ r ∈ s, r.price = p → r.ut = utDeleted) →
      ∀ e ∈ s.getTopEntries n m0, e.1 ≠ p) := by
  have hmem : ∀ e ∈ s.getTopEntries n m0,
      (∃ r ∈ s, r.ut = utNewOrChanged ∧ r.price = e.1) ∧ e.2 = s.liveSizeAt e.1 := by
    rintro ⟨p, w⟩ he
    rw [getTopEntries_eq s hwf.1] at he
    exact ((mem_live_levels s hwf.1 p w).1 (List.mem_of_mem_take he)).2
  refine ⟨hmem, ?_, ?_⟩
  · have hsl : Sorted s.live := List.Pairwise.sublist (List.filter_sublist s) hwf.1
    have hll : DboStore.live s.live = s.live := by
      unfold DboStore.live
      rw [List.filter_filter]
      simp
    rw [getTopEntries_eq s hwf.1, getTopEntries_eq s.live hsl, hll]
  · intro p hp e he hep
    obtain ⟨⟨r, hr, hnc, hrp⟩, _⟩ := hmem e he
    have := hp r hr (hrp.trans hep)
    rw [hnc] at this
    cases this

/-- C10 at a store with one live order and two deleted orders. -/
theorem getTopEntries_ignores_deleted_witness :
    DboStore.WF [⟨5, 22, 0, 0, 0, "X5FY", 0, true, utNewOrChanged⟩,
      ⟨5, 77, 0, 0, 0, "1FF3", 0, true, utDeleted⟩,
      ⟨6, 11, 0, 0, 0, "1XFY", 0, true, utDeleted⟩] ∧
    DboStore.getTopEntries [⟨5, 22, 0, 0, 0, "X5FY", 0, true, utNewOrChanged⟩,
        ⟨5, 77, 0, 0, 0, "1FF3", 0, true, utDeleted⟩,
        ⟨6, 11, 0, 0, 0, "1XFY", 0, true, utDeleted⟩] 10 [] =
      DboStore.getTopEntries (DboStore.live [⟨5, 22, 0, 0, 0, "X5FY", 0, true, utNewOrChanged⟩,
        ⟨5, 77, 0, 0, 0, "1FF3", 0, true, utDeleted⟩,
        ⟨6, 11, 0, 0, 0, "1XFY", 0, true, utDeleted⟩]) 10 [] :=
  ⟨by decide, (getTopEntries_ignores_deleted _ (by decide) 10 []).2.1⟩

/-! ## Top-N selection -/

/-- Two lists sorted by an asymmetric relation that have the same members are equal. -/
theorem eq_of_strict_sorted {α : Type} {r : α → α → Prop} (hasym : ∀ a b, r a b → r b a → False)
    {l₁ l₂ : List α} (h₁ : l₁.Pairwise r) (h₂ : l₂.Pairwise r)
    (hmem : ∀ a, a ∈ l₁ ↔ a ∈ l₂) : l₁ = l₂ := by
  have hne : ∀ a b, r a b → a ≠ b := fun a b hab heq => by
    subst heq; exact hasym a a hab hab
  have hn₁ : l₁.Nodup := List.Pairwise.imp (fun {a b} h => hne a b h) h₁
  have hn₂ : l₂.Nodup := List.Pairwise.imp (fun {a b} h => hne a b h) h₂
  haveI : IsAntisymm α r := ⟨fun a b hab hba => (hasym a b hab hba).elim⟩
  exact List.eq_of_perm_of_sorted ((List.perm_ext_iff_of_nodup hn₁ hn₂).2 hmem) h₁ h₂

/-- The distinct prices of the `utNewOrChanged` records of a sorted index, in ascending
order. -/
theorem live_prices_dedup_sorted (s : DboStore) (hs : Sorted s) :
    ((s.live.map (fun r => r.price)).dedup).Pairwise (fun x y => x < y) := by
  have h1 : ((s.live.map (fun r => r.price)).dedup).Pairwise (fun x y => x ≤ y) :=
    List.Pairwise.sublist (List.dedup_sublist _) (live_prices_sorted s hs)
  have h2 : ((s.live.map (fun r => r.price)).dedup).Pairwise (fun x y => x ≠ y) :=
    List.nodup_dedup _
  exact List.Pairwise.imp (fun {a b} h => Nat.lt_of_le_of_ne h.1 h.2) (h1.and h2)

/-- When no `utNewOrChanged` record has the price `0`, the levels of a sorted index are at
the distinct prices of its `utNewOrChanged` records, in ascending order. -/
theorem live_levels_keys (s : DboStore) (hs : Sorted s)
    (hnz : ∀ r ∈ s, r.ut = utNewOrChanged → r.price ≠ 0) :
    ((levelsFrom 0 0 s.live).filter (fun e => decide (e.1 ≠ 0))).map (fun e => e.1) =
      (s.live.map (fun r => r.price)).dedup := by
  apply eq_of_strict_sorted (r := fun x y : Nat => x < y) (fun a b h1 h2 => by omega)
  · rw [List.pairwise_map]
    exact live_levels_sorted s hs
  · exact live_prices_dedup_sorted s hs
  · intro k
    rw [List.mem_dedup, List.mem_map, List.mem_map]
    constructor
    · rintro ⟨⟨p, w⟩, he, rfl⟩
      obtain ⟨_, ⟨r, hr, hnc, hrp⟩, _⟩ := (mem_live_levels s hs p w).1 he
      exact ⟨r, mem_live.2 ⟨hr, hnc⟩, hrp⟩
    · rintro ⟨r, hr, rfl⟩
      obtain ⟨hr1, hr2⟩ := mem_live.1 hr
      exact ⟨(r.price, s.liveSizeAt r.price),
        (mem_live_levels s hs _ _).2 ⟨hnz r hr1 hr2, ⟨r, hr1, hr2, rfl⟩, rfl⟩, rfl⟩

/-- C11 (top-N selection on the ask side).  In a book whose ask store satisfies the container
invariants and has no `utNewOrChanged` record of price `0`, for every limit the keys of the
map returned by `getTopEntries(osAsk, limit, m)` are, in order, the first `limit` of the
distinct prices of the `utNewOrChanged` ask records taken in ascending order (all `L` of them
when there are fewer, so `min(limit, L)` keys: the lowest ones), and every key is mapped to
the exact sum of the sizes of the `utNewOrChanged` records at that price. -/
theorem ask_top_levels_are_lowest (b : DboBook) (hwf : b._asks.WF)
    (hnz : ∀ r ∈ b._asks, r.ut = utNewOrChanged → r.price ≠ 0) (n : Int) (m0 : PriceMap) :
    (b.getTopEntries OrderSide.osAsk n m0).map (fun e => e.1) =
      ((b._asks.live.map (fun r => r.price)).dedup).take n.toNat ∧
    ((b._asks.live.map (fun r => r.price)).dedup).Pairwise (fun x y => x < y) ∧
    (b.getTopEntries OrderSide.osAsk n m0).length =
      min n.toNat ((b._asks.live.map (fun r => r.price)).dedup).length ∧
    (∀ e ∈ b.getTopEntries OrderSide.osAsk n m0, e.2 = b._asks.liveSizeAt e.1) := by
  have hres : b.getTopEntries OrderSide.osAsk n m0 =
      ((levelsFrom 0 0 b._asks.live).filter (fun e => decide (e.1 ≠ 0))).take n.toNat := by
    simp only [DboBook.getTopEntries, if_true]
    exact getTopEntries_eq b._asks hwf.1 n m0
  have hkeys : (b.getTopEntries OrderSide.osAsk n m0).map (fun e => e.1) =
      ((b._asks.live.map (fun r => r.price)).dedup).take n.toNat := by
    rw [hres, List.map_take, live_levels_keys b._asks hwf.1 hnz]
  refine ⟨hkeys, live_prices_dedup_sorted b._asks hwf.1, ?_, ?_⟩
  · have := congrArg List.length hkeys
    rw [List.length_map, List.length_take] at this
    exact this
  · rintro ⟨p, w⟩ he
    rw [hres] at he
    exact ((mem_live_levels b._asks hwf.1 p w).1 (List.mem_of_mem_take he)).2.2

/-- C11 at a book with three live asks at two prices and one deleted ask, limit 1. -/
theorem ask_top_levels_are_lowest_witness :
    DboStore.WF [⟨5, 22, 0, 0, 0, "X5FY", 0, true, utNewOrChanged⟩,
      ⟨5, 10, 0, 0, 0, "A2B2", 0, true, utNewOrChanged⟩,
      ⟨6, 11, 0, 0, 0, "1XFY", 0, true, utNewOrChanged⟩,
      ⟨4, 77, 0, 0, 0, "1FF3", 0, true, utDeleted⟩] ∧
    (DboBook.getTopEntries ⟨[⟨5, 22, 0, 0, 0, "X5FY", 0, true, utNewOrChanged⟩,
      ⟨5, 10, 0, 0, 0, "A2B2", 0, true, utNewOrChanged⟩,
      ⟨6, 11, 0, 0, 0, "1XFY", 0, true, utNewOrChanged⟩,
      ⟨4, 77, 0, 0, 0, "1FF3", 0, true, utDeleted⟩], []⟩ OrderSide.osAsk 1 []).map
        (fun e => e.1) =
      ((DboStore.live [⟨5, 22, 0, 0, 0, "X5FY", 0, true, utNewOrChanged⟩,
      ⟨5, 10, 0, 0, 0, "A2B2", 0, true, utNewOrChanged⟩,
      ⟨6, 11, 0, 0, 0, "1XFY", 0, true, utNewOrChanged⟩,
      ⟨4, 77, 0, 0, 0, "1FF3", 0, true, utDeleted⟩]).map (fun r => r.price)).dedup.take 1 :=
  ⟨by decide,
    (ask_top_levels_are_lowest ⟨[⟨5, 22, 0, 0, 0, "X5FY", 0, true, utNewOrChanged⟩,
      ⟨5, 10, 0, 0, 0, "A2B2", 0, true, utNewOrChanged⟩,
      ⟨6, 11, 0, 0, 0, "1XFY", 0, true, utNewOrChanged⟩,
      ⟨4, 77, 0, 0, 0, "1FF3", 0, true, utDeleted⟩], []⟩ (by decide) (by decide) 1 []).1⟩

/-! ## Upsert: accepted updates, inserts and the frame -/

/-- C12 (accepted update overwrites).  In a store that satisfies the container invariants, an
upsert for an id that has a record, which is neither discarded (existing fresh and incoming
not fresh) nor rejected (existing `utDeleted` and incoming not `utDeleted`), returns without
error, and afterwards the record of the id has exactly the incoming price, size, three
timestamp components, priority, fresh flag and kind, with the id unchanged: the size is the
incoming one, not a sum with the previous size. -/
theorem accepted_update_overwrites (s : DboStore) (hwf : s.WF) (id : String) (x : DboRecord)
    (hx : s.record id = some x) (price : Nat) (size : ℚ) (nsecs ssboe usecs : Int)
    (priority : Nat) (fresh : Bool) (ut : UpdateType)
    (hkeep : ¬ (x.fresh = true ∧ fresh = false))
    (hrej : ¬ (x.ut = utDeleted ∧ ut ≠ utDeleted)) :
    (s.addOrUpdateDirect price size nsecs ssboe usecs id priority fresh ut).1 = .ok () ∧
    (s.addOrUpdateDirect price size nsecs ssboe usecs id priority fresh ut).2.record id =
      some ⟨price, size, nsecs, ssboe, usecs, id, priority, fresh, ut⟩ := by
  have hwf2 := addOrUpdateDirect_WF s hwf price size nsecs ssboe usecs id priority fresh ut
  have hc : (x.fresh && !fresh) = false := by
    cases hxf : x.fresh <;> cases hf : fresh <;> simp_all
  obtain ⟨pre, post, rfl, rfl, hids⟩ := exists_split s hwf.2 id x hx
  have hu : updateRecord price size nsecs ssboe usecs priority fresh ut x =
      .ok ⟨price, size, nsecs, ssboe, usecs, x.id, priority, fresh, ut⟩ := by
    simp only [updateRecord, hc, Bool.false_eq_true, if_false, hrej]
  rw [addOrUpdateDirect_present pre post x hids, hu] at hwf2 ⊢
  refine ⟨rfl, ?_⟩
  exact record_of_mem _ hwf2.2 ⟨price, size, nsecs, ssboe, usecs, x.id, priority, fresh, ut⟩
    (mem_relinked pre post _)

/-- C12 at the update of X5FY in `main.cpp`: size 22, then size 52 for the same id. -/
theorem accepted_update_overwrites_witness :
    DboStore.WF [⟨12000250000000000, 22, 0, 0, 0, "X5FY", 0, true, utNewOrChanged⟩] ∧
    (DboStore.addOrUpdateDirect [⟨12000250000000000, 22, 0, 0, 0, "X5FY", 0, true, utNewOrChanged⟩]
      12000250000000000 52 0 0 0 "X5FY" 0 true utNewOrChanged).2.record "X5FY" =
      some ⟨12000250000000000, 52, 0, 0, 0, "X5FY", 0, true, utNewOrChanged⟩ :=
  ⟨by decide,
    (accepted_update_overwrites
      [⟨12000250000000000, 22, 0, 0, 0, "X5FY", 0, true, utNewOrChanged⟩] (by decide) "X5FY"
      ⟨12000250000000000, 22, 0, 0, 0, "X5FY", 0, true, utNewOrChanged⟩ (by decide)
      12000250000000000 52 0 0 0 0 true utNewOrChanged (by decide) (by decide)).2⟩

/-- C13 (insert of an unseen id).  In a store that satisfies the container invariants, an
upsert for an id that has no record returns without error for every fresh flag and every
kind, `utDeleted` included; afterwards the store holds the previous records and exactly one
more, the record with the given price, size, timestamps, id, priority, fresh flag and kind,
which is the record of the id. -/
theorem insert_unseen_id (s : DboStore) (hwf : s.WF) (id : String)
    (hx : s.record id = none) (price : Nat) (size : ℚ) (nsecs ssboe usecs : Int)
    (priority : Nat) (fresh : Bool) (ut : UpdateType) :
    (s.addOrUpdateDirect price size nsecs ssboe usecs id priority fresh ut).1 = .ok () ∧
    (s.addOrUpdateDirect price size nsecs ssboe usecs id priority fresh ut).2.Perm
      (⟨price, size, nsecs, ssboe, usecs, id, priority, fresh, ut⟩ :: s) ∧
    (s.addOrUpdateDirect price size nsecs ssboe usecs id priority fresh ut).2.record id =
      some ⟨price, size, nsecs, ssboe, usecs, id, priority, fresh, ut⟩ := by
  have hwf2 := addOrUpdateDirect_WF s hwf price size nsecs ssboe usecs id priority fresh ut
  rw [addOrUpdateDirect_absent s _ _ _ _ _ _ _ _ _ hx] at hwf2 ⊢
  refine ⟨rfl, linkInsert_perm _ s, ?_⟩
  exact record_of_mem _ hwf2.2 ⟨price, size, nsecs, ssboe, usecs, id, priority, fresh, ut⟩
    (mem_linkInsert.2 (Or.inl rfl))

/-- C13 at a store holding A2B2, for the unseen id 1FF3 inserted as deleted. -/
theorem insert_unseen_id_witness :
    DboStore.WF [⟨3, 10, 0, 0, 0, "A2B2", 0, true, utNewOrChanged⟩] ∧
    DboStore.record [⟨3, 10, 0, 0, 0, "A2B2", 0, true, utNewOrChanged⟩] "1FF3" = none ∧
    (DboStore.addOrUpdateDirect [⟨3, 10, 0, 0, 0, "A2B2", 0, true, utNewOrChanged⟩]
      5 77 0 0 0 "1FF3" 0 false utDeleted).1 = .ok () :=
  ⟨by decide, by decide,
    (insert_unseen_id [⟨3, 10, 0, 0, 0, "A2B2", 0, true, utNewOrChanged⟩] (by decide) "1FF3"
      (by decide) 5 77 0 0 0 0 false utDeleted).1⟩

/-- C14 (only failure mode).  For every store and every upsert: when the call does not return
normally, the id has a record of kind `utDeleted`, the incoming kind is `utNewOrChanged` and
the error is "order is marked as deleted"; an upsert whose incoming kind is `utDeleted`
returns without error, and so does an upsert onto a record of kind `utNewOrChanged`.
`getTopEntries` and `printOrders` have no error outcome: for every store and every limit they
return a result. -/
theorem upsert_only_failure (s : DboStore) (price : Nat) (size : ℚ) (nsecs ssboe usecs : Int)
    (id : String) (priority : Nat) (fresh : Bool) (ut : UpdateType) (n : Int) (m0 : PriceMap) :
    ((s.addOrUpdateDirect price size nsecs ssboe usecs id priority fresh ut).1 ≠ .ok () →
      ∃ x, s.record id = some x ∧ x.ut = utDeleted ∧ ut = utNewOrChanged ∧
        (s.addOrUpdateDirect price size nsecs ssboe usecs id priority fresh ut).1 =
          .error "order is marked as deleted") ∧
    (ut = utDeleted →
      (s.addOrUpdateDirect price size nsecs ssboe usecs id priority fresh ut).1 = .ok ()) ∧
    (∀ x, s.record id = some x → x.ut = utNewOrChanged →
      (s.addOrUpdateDirect price size nsecs ssboe usecs id priority fresh ut).1 = .ok ()) ∧
    (∃ m, s.getTopEntries n m0 = m) ∧ (∃ rows, s.printOrders n = rows) := by
  have hcase : ∀ x, s.record id = some x →
      (s.addOrUpdateDirect price size nsecs ssboe usecs id priority fresh ut).1 =
        (if (x.fresh && !fresh) = true then .ok ()
         else if x.ut = utDeleted ∧ ut ≠ utDeleted then .error "order is marked as deleted"
         else .ok ()) := by
    intro x hx
    rw [addOrUpdateDirect_fst s id x hx]
    unfold updateRecord
    split_ifs <;> rfl
  have hnone : s.record id = none →
      (s.addOrUpdateDirect price size nsecs ssboe usecs id priority fresh ut).1 = .ok () := by
    intro h
    rw [addOrUpdateDirect_absent s _ _ _ _ _ _ _ _ _ h]
  refine ⟨?_, ?_, ?_, ⟨_, rfl⟩, ⟨_, rfl⟩⟩
  · intro hfail
    cases hr : s.record id with
    | none => exact absurd (hnone hr) hfail
    | some x =>
      rw [hcase x hr] at hfail ⊢
      refine ⟨x, rfl, ?_⟩
      split_ifs at hfail ⊢ with h1 h2
      · exact absurd rfl hfail
      · refine ⟨h2.1, ?_, rfl⟩
        cases ut with
        | utNewOrChanged => rfl
        | utDeleted => exact absurd rfl h2.2
      · exact absurd rfl hfail
  · intro hut
    cases hr : s.record id with
    | none => exact hnone hr
    | some x =>
      rw [hcase x hr]
      have : ¬ (x.ut = utDeleted ∧ ut ≠ utDeleted) := fun h => h.2 hut
      split_ifs <;> rfl
  · intro x hx hnc
    rw [hcase x hx]
    have : ¬ (x.ut = utDeleted ∧ ut ≠ utDeleted) := fun h => by
      rw [hnc] at h; exact absurd h.1 (by decide)
    split_ifs <;> rfl

/-- C14 at a store holding the deleted order 1FF3 and a fresh `utNewOrChanged` update for it:
the call fails, and with the consistency error. -/
theorem upsert_only_failure_witness :
    (DboStore.addOrUpdateDirect [⟨5, 77, 0, 0, 0, "1FF3", 0, true, utDeleted⟩]
      5 77 0 0 0 "1FF3" 0 true utNewOrChanged).1 ≠ .ok () ∧
    ∃ x, DboStore.record [⟨5, 77, 0, 0, 0, "1FF3", 0, true, utDeleted⟩] "1FF3" = some x ∧
      x.ut = utDeleted ∧ utNewOrChanged = utNewOrChanged ∧
      (DboStore.addOrUpdateDirect [⟨5, 77, 0, 0, 0, "1FF3", 0, true, utDeleted⟩]
        5 77 0 0 0 "1FF3" 0 true utNewOrChanged).1 = .error "order is marked as deleted" :=
  ⟨by decide,
    (upsert_only_failure [⟨5, 77, 0, 0, 0, "1FF3", 0, true, utDeleted⟩]
      5 77 0 0 0 "1FF3" 0 true utNewOrChanged 10 []).1 (by decide)⟩

set_option maxRecDepth 16384 in
/-- C15 (reference ask scenario).  From the empty book, the six ask updates of `main.cpp`
(the prices converted to fixed point by the call) all return without error, and `getTopEntries(osAsk, 10, m)` is the
three-entry map 12000.00 → 10, 12000.25 → 52, 12001.00 → 11. -/
theorem main_asks_top_levels :
    DboBook.outcomes ⟨[], []⟩ mainAsks = [.ok (), .ok (), .ok (), .ok (), .ok (), .ok ()] ∧
    (DboBook.run ⟨[], []⟩ mainAsks).getTopEntries OrderSide.osAsk 10 [] =
      [(12000000000000000, 10), (12000250000000000, 52), (12001000000000000, 11)] ∧
    mainAsks.map (fun c => fixedPrice c.price) =
      [12000 * convertToPrice 1 numFrac, 1200025 * convertToPrice 1 (numFrac - 2),
       1200025 * convertToPrice 1 (numFrac - 2), 12001 * convertToPrice 1 numFrac,
       1200025 * convertToPrice 1 (numFrac - 2), 1200025 * convertToPrice 1 (numFrac - 2)] := by
  decide

/-! ## Enumeration -/

theorem printLoop_eq (n : Int) (l : List DboRecord) :
    ∀ i : Int, printLoop n i l = (l.take (n - i).toNat).map printedOrder := by
  induction l with
  | nil => intro i; simp [printLoop]
  | cons a rest ih =>
    intro i
    unfold printLoop
    by_cases h : i < n
    · have hn : (n - i).toNat = (n - (i + 1)).toNat + 1 := by omega
      rw [if_pos h, ih (i + 1), hn, List.take_succ_cons, List.map_cons]
    · have hn : (n - i).toNat = 0 := by omega
      rw [if_neg h, hn]
      rfl

/-- C17 (enumerate is a prefix of the ordered view).  For every store with `n` records and
every limit, `printOrders(limit)` writes exactly `min(limit, n)` lines (none for a limit
below `0`): one line for each of the first `min(limit, n)` records of the ordered view, in
order, each with the label `NC` or `D` of its kind, its own price and its own size, records of
equal price not being merged.  In a store that satisfies the container invariants no line
labelled `D` is followed by a line labelled `NC`. -/
theorem printOrders_first_records (s : DboStore) (n : Int) :
    s.printOrders n = (s.take n.toNat).map printedOrder ∧
    (s.printOrders n).length = min n.toNat s.length ∧
    (∀ r, (printedOrder r).kind = (if r.ut = utNewOrChanged then "NC" else "D") ∧
      (printedOrder r).price = r.price ∧ (printedOrder r).size = r.size) ∧
    (s.WF → (s.printOrders n).Pairwise (fun x y => x.kind = "D" → y.kind = "D")) := by
  have h1 : s.printOrders n = (s.take n.toNat).map printedOrder := by
    unfold DboStore.printOrders
    rw [printLoop_eq n s 0]
    simp
  refine ⟨h1, ?_, fun r => ⟨rfl, rfl, rfl⟩, ?_⟩
  · rw [h1, List.length_map, List.length_take]
  · intro hwf
    rw [h1, List.pairwise_map]
    have h2 : (s.take n.toNat).Pairwise (fun a b => a.ut = utDeleted → b.ut = utDeleted) :=
      List.Pairwise.sublist (List.take_sublist _ _) (sorted_live_first hwf.1)
    refine List.Pairwise.imp ?_ h2
    intro a b hab ha
    have had : a.ut = utDeleted := by
      cases hu : a.ut with
      | utNewOrChanged => simp [printedOrder, hu] at ha
      | utDeleted => rfl
    simp [printedOrder, hab had]

/-- C17 at a store with two live orders at one price and one deleted order, limit 2. -/
theorem printOrders_first_records_witness :
    DboStore.WF [⟨5, 22, 0, 0, 0, "X5FY", 0, true, utNewOrChanged⟩,
      ⟨5, 10, 0, 0, 0, "A2B2", 0, true, utNewOrChanged⟩,
      ⟨4, 77, 0, 0, 0, "1FF3", 0, true, utDeleted⟩] ∧
    (DboStore.printOrders [⟨5, 22, 0, 0, 0, "X5FY", 0, true, utNewOrChanged⟩,
      ⟨5, 10, 0, 0, 0, "A2B2", 0, true, utNewOrChanged⟩,
      ⟨4, 77, 0, 0, 0, "1FF3", 0, true, utDeleted⟩] 2).Pairwise
        (fun x y => x.kind = "D" → y.kind = "D") :=
  ⟨by decide,
    (printOrders_first_records [⟨5, 22, 0, 0, 0, "X5FY", 0, true, utNewOrChanged⟩,
      ⟨5, 10, 0, 0, 0, "A2B2", 0, true, utNewOrChanged⟩,
      ⟨4, 77, 0, 0, 0, "1FF3", 0, true, utDeleted⟩] 2).2.2.2 (by decide)⟩

/-! ## The frame of an upsert -/

/-- In stores with pairwise distinct ids, the record of an id only depends on which records
with that id the store holds. -/
theorem record_congr (l₁ l₂ : DboStore) (h₁ : (l₁.map (fun r => r.id)).Nodup) (id : String)
    (h : ∀ y, y.id = id → (y ∈ l₁ ↔ y ∈ l₂)) : l₁.record id = l₂.record id := by
  cases hr : l₂.record id with
  | none =>
    rw [record_eq_none_iff] at hr ⊢
    intro y hy hid
    exact hr y ((h y hid).1 hy) hid
  | some y =>
    obtain ⟨hy, hid⟩ := record_eq_some l₂ id y hr
    have := record_of_mem l₁ h₁ y ((h y hid).2 hy)
    rw [hid] at this
    exact this

theorem addOrUpdateDirect_frame (s : DboStore) (hwf : s.WF) (price : Nat) (size : ℚ)
    (nsecs ssboe usecs : Int) (id : String) (priority : Nat) (fresh : Bool) (ut : UpdateType)
    (other : String) (hne : other ≠ id) :
    (s.addOrUpdateDirect price size nsecs ssboe usecs id priority fresh ut).2.record other =
      s.record other := by
  have hwf2 := addOrUpdateDirect_WF s hwf price size nsecs ssboe usecs id priority fresh ut
  refine record_congr _ _ hwf2.2 other ?_
  intro y hy
  cases h : s.record id with
  | none =>
    rw [addOrUpdateDirect_absent s _ _ _ _ _ _ _ _ _ h, mem_linkInsert]
    constructor
    · rintro (rfl | h1)
      · exact absurd hy hne.symm
      · exact h1
    · exact Or.inr
  | some x =>
    obtain ⟨pre, post, rfl, rfl, hids⟩ := exists_split s hwf.2 id x h
    have hyx : y ≠ x := fun hyx => hne (by rw [← hy, hyx])
    have hmem : y ∈ pre ++ x :: post ↔ y ∈ pre ++ post := by
      simp only [List.mem_append, List.mem_cons]
      constructor
      · rintro (h1 | h1 | h1)
        · exact Or.inl h1
        · exact absurd h1 hyx
        · exact Or.inr h1
      · rintro (h1 | h1)
        · exact Or.inl h1
        · exact Or.inr (Or.inr h1)
    rw [addOrUpdateDirect_present pre post x hids, hmem]
    cases hu : updateRecord price size nsecs ssboe usecs priority fresh ut x with
    | error e => exact Iff.rfl
    | ok v =>
      have hyv : y ≠ v := fun hyv => hne (by rw [← hy, hyv, updateRecord_id hu])
      simp only
      split_ifs
      · simp only [List.mem_append, List.mem_cons]
        constructor
        · rintro (h1 | h1 | h1)
          · exact Or.inl h1
          · exact absurd h1 hyv
          · exact Or.inr h1
        · rintro (h1 | h1)
          · exact Or.inl h1
          · exact Or.inr (Or.inr h1)
      · rw [mem_linkInsert]
        constructor
        · rintro (h1 | h1)
          · exact absurd h1 hyv
          · exact h1
        · exact Or.inr

/-- C18 (frame of upsert).  In a store that satisfies the container invariants, whatever an
upsert for the id `id` does (insert, overwrite, silent discard or failure), every other id has
the same record after the call as before it: a record with another id stays, all its fields
unchanged, and no other id gains a record.  `DboBook::addOrUpdate` on one side leaves the
store of the other side unchanged. -/
theorem upsert_frame (s : DboStore) (hwf : s.WF) (b : DboBook) (price : Nat) (dprice : Dbl)
    (size : ℚ) (nsecs ssboe usecs : Int) (id : String) (priority : Nat) (fresh : Bool)
    (ut : UpdateType) (other : String) (hne : other ≠ id) :
    (s.addOrUpdateDirect price size nsecs ssboe usecs id priority fresh ut).2.record other =
      s.record other ∧
    (b.addOrUpdate OrderSide.osAsk dprice size nsecs ssboe usecs id priority fresh ut).2._bids =
      b._bids ∧
    (b.addOrUpdate OrderSide.osBid dprice size nsecs ssboe usecs id priority fresh ut).2._asks =
      b._asks :=
  ⟨addOrUpdateDirect_frame s hwf price size nsecs ssboe usecs id priority fresh ut other hne,
    rfl, rfl⟩

/-- C18 at a store holding A2B2 and the deleted 1FF3, for a failing upsert on 1FF3. -/
theorem upsert_frame_witness :
    DboStore.WF [⟨3, 10, 0, 0, 0, "A2B2", 0, true, utNewOrChanged⟩,
      ⟨5, 77, 0, 0, 0, "1FF3", 0, true, utDeleted⟩] ∧
    (DboStore.addOrUpdateDirect [⟨3, 10, 0, 0, 0, "A2B2", 0, true, utNewOrChanged⟩,
      ⟨5, 77, 0, 0, 0, "1FF3", 0, true, utDeleted⟩]
      5 77 0 0 0 "1FF3" 0 true utNewOrChanged).2.record "A2B2" =
      DboStore.record [⟨3, 10, 0, 0, 0, "A2B2", 0, true, utNewOrChanged⟩,
        ⟨5, 77, 0, 0, 0, "1FF3", 0, true, utDeleted⟩] "A2B2" :=
  ⟨by decide,
    (upsert_frame [⟨3, 10, 0, 0, 0, "A2B2", 0, true, utNewOrChanged⟩,
      ⟨5, 77, 0, 0, 0, "1FF3", 0, true, utDeleted⟩] (by decide) ⟨[], []⟩
      5 (Dbl.ofRatio 5 1) 77 0 0 0 "1FF3" 0 true utNewOrChanged "A2B2" (by decide)).1⟩

/-- C19 at its failing input: after a real-time delete of 1FF3 its record has `fresh = true`;
a fresh `utNewOrChanged` update for 1FF3 then throws and erases the record, and a following
update with `fresh = false` inserts the order anew: the record of 1FF3 is present with
`fresh = false`. -/
theorem fresh_flag_lost_after_failure :
    (DboStore.record
      (DboStore.run [] [⟨5, 77, 0, 0, 0, "1FF3", 0, true, utDeleted⟩]) "1FF3").map
        (fun r => r.fresh) = some true ∧
    (DboStore.apply (DboStore.run [] [⟨5, 77, 0, 0, 0, "1FF3", 0, true, utDeleted⟩])
      ⟨5, 77, 0, 0, 0, "1FF3", 0, true, utNewOrChanged⟩).1 =
        .error "order is marked as deleted" ∧
    DboStore.record
      (DboStore.run []
        [⟨5, 77, 0, 0, 0, "1FF3", 0, true, utDeleted⟩,
         ⟨5, 77, 0, 0, 0, "1FF3", 0, true, utNewOrChanged⟩,
         ⟨5, 77, 0, 0, 0, "1FF3", 0, false, utNewOrChanged⟩]) "1FF3" =
      some ⟨5, 77, 0, 0, 0, "1FF3", 0, false, utNewOrChanged⟩ := by
  decide

/-! ## `getTopEntries` only depends on the live orders -/

theorem sizeAt_eq_pairs (p : Nat) (l : List DboRecord) :
    sizeAt p l =
      (((l.map (fun r => (r.price, r.size))).filter (fun e => decide (e.1 = p))).map
        (fun e => e.2)).sum := by
  unfold sizeAt
  rw [List.filter_map, List.map_map]
  rfl

/-- C20 (`getTopEntries` depends only on the live orders).  For two stores that satisfy the
container invariants and whose `utNewOrChanged` records have the same multiset of
(price, size) pairs, `getTopEntries` returns the same map for every limit, whatever
`utDeleted` records each store holds, whatever the order of the equal-price records in each
ordered view, and whatever the output maps held before (sizes summed as exact numbers). -/
theorem getTopEntries_depends_on_live (s₁ s₂ : DboStore) (h₁ : s₁.WF) (h₂ : s₂.WF)
    (hperm : (s₁.live.map (fun r => (r.price, r.size))).Perm
      (s₂.live.map (fun r => (r.price, r.size))))
    (n : Int) (m₁ m₂ : PriceMap) :
    s₁.getTopEntries n m₁ = s₂.getTopEntries n m₂ := by
  have hprice : ∀ p, (∃ r ∈ s₁, r.ut = utNewOrChanged ∧ r.price = p) ↔
      (∃ r ∈ s₂, r.ut = utNewOrChanged ∧ r.price = p) := by
    intro p
    have hp := (hperm.map (fun e => e.1)).mem_iff (a := p)
    simp only [List.map_map, List.mem_map, Function.comp, mem_live] at hp
    constructor
    · rintro ⟨r, hr, hnc, hrp⟩
      obtain ⟨r', ⟨hr', hnc'⟩, hrp'⟩ := hp.1 ⟨r, ⟨hr, hnc⟩, hrp⟩
      exact ⟨r', hr', hnc', hrp'⟩
    · rintro ⟨r, hr, hnc, hrp⟩
      obtain ⟨r', ⟨hr', hnc'⟩, hrp'⟩ := hp.2 ⟨r, ⟨hr, hnc⟩, hrp⟩
      exact ⟨r', hr', hnc', hrp'⟩
  have hsize : ∀ p, s₁.liveSizeAt p = s₂.liveSizeAt p := by
    intro p
    rw [liveSizeAt_eq, liveSizeAt_eq, sizeAt_eq_pairs, sizeAt_eq_pairs]
    exact (((hperm.filter _).map _).sum_eq)
  have hlev : (levelsFrom 0 0 s₁.live).filter (fun e => decide (e.1 ≠ 0)) =
      (levelsFrom 0 0 s₂.live).filter (fun e => decide (e.1 ≠ 0)) := by
    apply eq_of_strict_sorted (r := fun e f : Nat × ℚ => e.1 < f.1)
      (fun a b h1 h2 => by omega) (live_levels_sorted s₁ h₁.1) (live_levels_sorted s₂ h₂.1)
    rintro ⟨p, w⟩
    rw [mem_live_levels s₁ h₁.1, mem_live_levels s₂ h₂.1, hprice p, hsize p]
  rw [getTopEntries_eq s₁ h₁.1, getTopEntries_eq s₂ h₂.1, hlev]

/-- C20 at two stores with the same two live orders at one price, in opposite orders, one of
the stores holding a deleted order as well. -/
theorem getTopEntries_depends_on_live_witness :
    DboStore.WF [⟨5, 22, 0, 0, 0, "X5FY", 0, true, utNewOrChanged⟩,
      ⟨5, 10, 0, 0, 0, "A2B2", 0, true, utNewOrChanged⟩,
      ⟨4, 77, 0, 0, 0, "1FF3", 0, true, utDeleted⟩] ∧
    DboStore.WF [⟨5, 10, 1, 2, 3, "A2B2", 7, false, utNewOrChanged⟩,
      ⟨5, 22, 0, 0, 0, "X5FY", 0, true, utNewOrChanged⟩] ∧
    DboStore.getTopEntries [⟨5, 22, 0, 0, 0, "X5FY", 0, true, utNewOrChanged⟩,
      ⟨5, 10, 0, 0, 0, "A2B2", 0, true, utNewOrChanged⟩,
      ⟨4, 77, 0, 0, 0, "1FF3", 0, true, utDeleted⟩] 3 [] =
    DboStore.getTopEntries [⟨5, 10, 1, 2, 3, "A2B2", 7, false, utNewOrChanged⟩,
      ⟨5, 22, 0, 0, 0, "X5FY", 0, true, utNewOrChanged⟩] 3 [(1, 1)] :=
  ⟨by decide, by decide,
    getTopEntries_depends_on_live
      [⟨5, 22, 0, 0, 0, "X5FY", 0, true, utNewOrChanged⟩,
        ⟨5, 10, 0, 0, 0, "A2B2", 0, true, utNewOrChanged⟩,
        ⟨4, 77, 0, 0, 0, "1FF3", 0, true, utDeleted⟩]
      [⟨5, 10, 1, 2, 3, "A2B2", 7, false, utNewOrChanged⟩,
        ⟨5, 22, 0, 0, 0, "X5FY", 0, true, utNewOrChanged⟩]
      (by decide) (by decide) (List.Perm.swap (5, 10) (5, 22) []) 3 [] [(1, 1)]⟩

/-! ## The conversion of the `double` price to fixed point -/

theorem bitsAux_spec (fuel : Nat) :
    ∀ n, n ≤ fuel → n < 2 ^ bitsAux fuel n ∧ (n ≠ 0 → 2 ^ (bitsAux fuel n - 1) ≤ n) := by
  induction fuel with
  | zero =>
    intro n hn
    have : n = 0 := by omega
    subst this
    simp [bitsAux]
  | succ f ih =>
    intro n hn
    by_cases h0 : n = 0
    · subst h0; simp [bitsAux]
    · have hle : n / 2 ≤ f := by omega
      obtain ⟨h1, h2⟩ := ih (n / 2) hle
      simp only [bitsAux, h0, if_false, Nat.add_sub_cancel]
      constructor
      · rw [Nat.pow_succ]; omega
      · intro _
        by_cases h3 : n / 2 = 0
        · have : bitsAux f (n / 2) = 0 := by
            rw [h3]; cases f <;> simp [bitsAux]
          rw [this]; simp; omega
        · have h4 := h2 h3
          have h5 : bitsAux f (n / 2) ≠ 0 := by
            intro h6
            rw [h6] at h1
            simp at h1
            exact h3 h1
          have h6 : bitsAux f (n / 2) = (bitsAux f (n / 2) - 1) + 1 := by omega
          rw [h6, Nat.pow_succ]
          omega

theorem lt_two_pow_bits (n : Nat) : n < 2 ^ bits n :=
  (bitsAux_spec n n (Nat.le_refl n)).1

theorem bits_le_of_lt {n j : Nat} (h : n < 2 ^ j) : bits n ≤ j := by
  by_cases h0 : n = 0
  · subst h0
    have : bits 0 = 0 := rfl
    omega
  · have h1 := (bitsAux_spec n n (Nat.le_refl n)).2 h0
    have h2 : 2 ^ (bits n - 1) < 2 ^ j := Nat.lt_of_le_of_lt h1 h
    have h3 := (Nat.pow_lt_pow_iff_right (by decide : 1 < 2)).1 h2
    have h4 : bits n ≠ 0 := by
      intro h5
      have := lt_two_pow_bits n
      rw [h5] at this
      simp at this
      exact h0 this
    omega

theorem rneDiv_of_dvd {n d : Nat} (hd : 0 < d) (h : d ∣ n) : rneDiv n d = n / d := by
  have : n % d = 0 := Nat.mod_eq_zero_of_dvd h
  simp [rneDiv, this, hd]

/-- Rounding leaves a number alone that has at most 53 significant binary digits. -/
theorem round_of_representable (n : Nat) (e : Int) (he : -1074 ≤ e) (k t : Nat)
    (hk : k < 2 ^ 53) (hn : n = k * 2 ^ t) :
    Dbl.round n e = ⟨n / 2 ^ (bits n - 53), e + ((bits n - 53 : Nat) : Int)⟩ ∧
      2 ^ (bits n - 53) ∣ n := by
  have hclamp : (-1074 - e).toNat = 0 := by omega
  have hs : bits n - 53 ≤ t := by
    have : n < 2 ^ (53 + t) := by
      rw [hn, Nat.pow_add]
      exact Nat.mul_lt_mul_of_pos_right hk (Nat.two_pow_pos _)
    have := bits_le_of_lt this
    omega
  have hdvd : 2 ^ (bits n - 53) ∣ n := by
    have h1 : 2 ^ (bits n - 53) ∣ k * 2 ^ t := Dvd.dvd.mul_left (Nat.pow_dvd_pow 2 hs) k
    rw [← hn] at h1
    exact h1
  have hq : n / 2 ^ (bits n - 53) < 2 ^ 53 := by
    apply Nat.div_lt_of_lt_mul
    rw [← Nat.pow_add]
    refine Nat.lt_of_lt_of_le (lt_two_pow_bits n) ?_
    exact Nat.pow_le_pow_right (by decide) (by omega)
  refine ⟨?_, hdvd⟩
  unfold Dbl.round
  rw [hclamp, Nat.max_eq_left (Nat.zero_le _), rneDiv_of_dvd (Nat.two_pow_pos _) hdvd]
  rw [if_neg (Nat.ne_of_lt hq)]

/-- The conversion to `PriceType` of a rounded number that needed no rounding and stands for
the natural number `d`. -/
theorem toPriceType_round (n : Nat) (e : Int) (he : -1074 ≤ e) (k t : Nat)
    (hk : k < 2 ^ 53) (hn : n = k * 2 ^ t) (d : Nat) (hlt : d < 2 ^ 64)
    (hd : (0 ≤ e ∧ d = n * 2 ^ e.toNat) ∨ (e < 0 ∧ d * 2 ^ (-e).toNat = n)) :
    Dbl.toPriceType (Dbl.round n e) = d := by
  obtain ⟨hr, hdvd⟩ := round_of_representable n e he k t hk hn
  have hq : n / 2 ^ (bits n - 53) * 2 ^ (bits n - 53) = n := Nat.div_mul_cancel hdvd
  rw [hr]
  unfold Dbl.toPriceType
  simp only
  generalize bits n - 53 = s at hq ⊢
  generalize n / 2 ^ s = q at hq ⊢
  rcases hd with ⟨h0, hd⟩ | ⟨h0, hd⟩
  · have h1 : 0 ≤ e + (s : Int) := by omega
    have h2 : (e + (s : Int)).toNat = s + e.toNat := by omega
    rw [if_pos h1, h2, Nat.pow_add, ← Nat.mul_assoc, hq, ← hd]
    exact Nat.mod_eq_of_lt hlt
  · by_cases h1 : 0 ≤ e + (s : Int)
    · have h2 : s = (e + (s : Int)).toNat + (-e).toNat := by omega
      have h3 : q * 2 ^ (e + (s : Int)).toNat * 2 ^ (-e).toNat = d * 2 ^ (-e).toNat := by
        rw [Nat.mul_assoc, ← Nat.pow_add, ← h2, hq, hd]
      have h4 := Nat.eq_of_mul_eq_mul_right (Nat.two_pow_pos _) h3
      rw [if_pos h1, h4]
      exact Nat.mod_eq_of_lt hlt
    · have h2 : (-e).toNat = (-(e + (s : Int))).toNat + s := by omega
      have h3 : q * 2 ^ s = d * 2 ^ (-(e + (s : Int))).toNat * 2 ^ s := by
        rw [Nat.mul_assoc, ← Nat.pow_add, ← h2, hq, hd]
      have h4 := Nat.eq_of_mul_eq_mul_right (Nat.two_pow_pos _) h3
      rw [if_neg h1, h4, Nat.mul_div_cancel _ (Nat.two_pow_pos _)]
      exact Nat.mod_eq_of_lt hlt

set_option maxRecDepth 8192 in
theorem ofNat_scale : Dbl.ofNat (convertToPrice 1 numFrac) = ⟨1000000000000, 0⟩ := by
  decide

/-- A price that is a binary64 value and whose product with `10 ^ 12` is a natural number
below `2 ^ 64` that is a binary64 value too is converted to exactly that product. -/
theorem fixedPrice_of_representable (x : Dbl) (hx : x.IsDouble) (d k j : Nat)
    (hd : (d : ℚ) = x.val * 10 ^ 12) (hlt : d < 2 ^ 64) (hk : k < 2 ^ 53)
    (hdk : d = k * 2 ^ j) : fixedPrice x = d := by
  unfold fixedPrice Dbl.mul
  rw [ofNat_scale]
  simp only [Int.add_zero]
  unfold Dbl.val at hd
  by_cases h0 : 0 ≤ x.exp
  · obtain ⟨a, ha⟩ := Int.eq_ofNat_of_zero_le h0
    have hnat : d = x.man * 1000000000000 * 2 ^ a := by
      have : (d : ℚ) = ((x.man * 1000000000000 * 2 ^ a : Nat) : ℚ) := by
        rw [hd, ha]
        push_cast
        rw [zpow_natCast]
        ring
      exact_mod_cast this
    have hrep : ∃ k' t, k' < 2 ^ 53 ∧ x.man * 1000000000000 = k' * 2 ^ t := by
      by_cases haj : a ≤ j
      · refine ⟨k, j - a, hk, ?_⟩
        have h1 : x.man * 1000000000000 * 2 ^ a = k * 2 ^ (j - a) * 2 ^ a := by
          rw [← hnat, hdk, Nat.mul_assoc, ← Nat.pow_add]
          congr 2
          omega
        exact Nat.eq_of_mul_eq_mul_right (Nat.two_pow_pos _) h1
      · refine ⟨x.man * 1000000000000, 0, ?_, by simp⟩
        have hpow : 2 ^ a = 2 ^ (a - j) * 2 ^ j := by
          rw [← Nat.pow_add]
          congr 1
          omega
        have h1 : k * 2 ^ j = x.man * 1000000000000 * 2 ^ (a - j) * 2 ^ j := by
          rw [← hdk, hnat, hpow, Nat.mul_assoc (x.man * 1000000000000)]
        have h2 := Nat.eq_of_mul_eq_mul_right (Nat.two_pow_pos _) h1
        have h3 : x.man * 1000000000000 ≤ x.man * 1000000000000 * 2 ^ (a - j) :=
          Nat.le_mul_of_pos_right _ (Nat.two_pow_pos _)
        omega
    obtain ⟨k', t, hk', hn⟩ := hrep
    refine toPriceType_round _ _ hx.2.1 k' t hk' hn d hlt (Or.inl ⟨h0, ?_⟩)
    rw [hnat, ha]
    rfl
  · have h1 : x.exp < 0 := by omega
    obtain ⟨a, ha⟩ := Int.exists_eq_neg_ofNat (Int.le_of_lt h1)
    have hnat : d * 2 ^ a = x.man * 1000000000000 := by
      have : ((d * 2 ^ a : Nat) : ℚ) = ((x.man * 1000000000000 : Nat) : ℚ) := by
        push_cast
        rw [hd, ha, zpow_neg, zpow_natCast]
        field_simp
        norm_num
      exact_mod_cast this
    refine toPriceType_round _ _ hx.2.1 k (j + a) hk ?_ d hlt (Or.inr ⟨h1, ?_⟩)
    · rw [← hnat, hdk, Nat.mul_assoc, ← Nat.pow_add]
    · rw [← hnat, ha]
      simp

/-- C16, as the code has it (fixed-point boundary).  For every non-negative price `x` that is
a binary64 value, has at most 12 fractional digits (`x * 10 ^ 12` is a natural number `dx`),
is within range (`dx < 2 ^ 64`) and whose product `dx` is a binary64 value too (a significand
`kx` of at most 53 binary digits times a power of two), `DboBook::addOrUpdate` passes exactly
`dx` to `addOrUpdateDirect`, on either side: the record is stored with the integer price
`x * 10 ^ 12`.  Dividing the stored integer by `10 ^ 12` recovers the price, and two such
prices get equal keys exactly when they are equal. -/
theorem representable_price_stored_exactly (x y : Dbl) (hx : x.IsDouble) (hy : y.IsDouble)
    (dx kx jx dy ky jy : Nat)
    (hdx : (dx : ℚ) = x.val * 10 ^ 12) (hltx : dx < 2 ^ 64) (hkx : kx < 2 ^ 53)
    (hrx : dx = kx * 2 ^ jx)
    (hdy : (dy : ℚ) = y.val * 10 ^ 12) (hlty : dy < 2 ^ 64) (hky : ky < 2 ^ 53)
    (hry : dy = ky * 2 ^ jy)
    (b : DboBook) (size : ℚ) (nsecs ssboe usecs : Int) (id : String) (priority : Nat)
    (fresh : Bool) (ut : UpdateType) :
    fixedPrice x = dx ∧
    b.addOrUpdate OrderSide.osAsk x size nsecs ssboe usecs id priority fresh ut =
      ((b._asks.addOrUpdateDirect dx size nsecs ssboe usecs id priority fresh ut).1,
        { b with _asks :=
            (b._asks.addOrUpdateDirect dx size nsecs ssboe usecs id priority fresh ut).2 }) ∧
    b.addOrUpdate OrderSide.osBid x size nsecs ssboe usecs id priority fresh ut =
      ((b._bids.addOrUpdateDirect dx size nsecs ssboe usecs id priority fresh ut).1,
        { b with _bids :=
            (b._bids.addOrUpdateDirect dx size nsecs ssboe usecs id priority fresh ut).2 }) ∧
    ((fixedPrice x : ℚ) / 10 ^ 12 = x.val) ∧
    (fixedPrice x = fixedPrice y ↔ x.val = y.val) := by
  have hfx := fixedPrice_of_representable x hx dx kx jx hdx hltx hkx hrx
  have hfy := fixedPrice_of_representable y hy dy ky jy hdy hlty hky hry
  refine ⟨hfx, ?_, ?_, ?_, ?_⟩
  · simp only [DboBook.addOrUpdate, if_true, hfx]
  · have : ¬ OrderSide.osBid = OrderSide.osAsk := by decide
    simp only [DboBook.addOrUpdate, this, if_false, hfx]
  · rw [hfx, hdx]
    field_simp
  · rw [hfx, hfy]
    constructor
    · intro h
      have h1 : x.val * 10 ^ 12 = y.val * 10 ^ 12 := by rw [← hdx, ← hdy, h]
      have h2 : (10 : ℚ) ^ 12 ≠ 0 := by norm_num
      exact mul_right_cancel₀ h2 h1
    · intro h
      have h1 : (dx : ℚ) = (dy : ℚ) := by rw [hdx, hdy, h]
      exact_mod_cast h1

/-- C16 at the prices 12000.25 and 11999.75 of `main.cpp`, which are binary64 values with
binary64 products 12000250000000000 and 11999750000000000. -/
theorem representable_price_stored_exactly_witness :
    Dbl.IsDouble ⟨6597207205609472, -39⟩ ∧ Dbl.IsDouble ⟨6596932327702528, -39⟩ ∧
    ((12000250000000000 : Nat) : ℚ) = Dbl.val ⟨6597207205609472, -39⟩ * 10 ^ 12 ∧
    ((11999750000000000 : Nat) : ℚ) = Dbl.val ⟨6596932327702528, -39⟩ * 10 ^ 12 ∧
    fixedPrice ⟨6597207205609472, -39⟩ = 12000250000000000 :=
  ⟨by decide, by decide, by norm_num [Dbl.val], by norm_num [Dbl.val],
    (representable_price_stored_exactly ⟨6597207205609472, -39⟩ ⟨6596932327702528, -39⟩
      (by decide) (by decide)
      12000250000000000 6000125000000000 1 11999750000000000 5999875000000000 1
      (by norm_num [Dbl.val]) (by decide) (by decide) (by decide)
      (by norm_num [Dbl.val]) (by decide) (by decide) (by decide)
      ⟨[], []⟩ 10 0 0 0 "A2B2" 0 true utNewOrChanged).1⟩

set_option maxRecDepth 16384 in
/-- C16, as stated, fails.  The literal 4.35, a decimal price with two fractional digits, is
the binary64 value 4897664594765414 * 2 ^ (-50); `addOrUpdate` converts it to
4349999999999, not to 4.35 * 10 ^ 12 = 4350000000000.  The decimal prices
12000.000000000001 and 12000.000000000002, distinct and with 12 fractional digits, are the
same binary64 value and get the same key.  The binary64 price (2 ^ 36 - 1) / 2 ^ 12, whose
product with 10 ^ 12 is a natural number below 2 ^ 64 that is no binary64 value, is not
converted to that product. -/
theorem decimal_price_counterexample :
    Dbl.ofRatio 435 100 = ⟨4897664594765414, -50⟩ ∧
    fixedPrice (Dbl.ofRatio 435 100) = 4349999999999 ∧
    fixedPrice (Dbl.ofRatio 435 100) ≠ 435 * 10 ^ 10 ∧
    12000000000000001 ≠ 12000000000000002 ∧
    fixedPrice (Dbl.ofRatio 12000000000000001 (10 ^ 12)) =
      fixedPrice (Dbl.ofRatio 12000000000000002 (10 ^ 12)) ∧
    Dbl.IsDouble ⟨2 ^ 36 - 1, -12⟩ ∧
    (2 ^ 36 - 1) * 5 ^ 12 < 2 ^ 64 ∧
    fixedPrice ⟨2 ^ 36 - 1, -12⟩ ≠ (2 ^ 36 - 1) * 5 ^ 12 := by
  decide

end Dbo
